import Mathlib

/-!
Verification of the bte_trapi_query_graph_handler query-execution core.

This file gives a shallow embedding, in Lean 4, of the parts of the source
relevant to the verified properties:

* src/src/query_results.js — the results assembler (preresult enumeration,
  consolidation keys, grouping, merging, TRAPI result formatting);
* src/src/cache_handler.js — the cache encode/decode pipeline
  (DelimitedChunks, createEncodeStream, categorizeEdges) and its locking;
* src/src/query_execution_edge.js — getHashedEdgeRepresentation;
* src/src/graph/knowledge_graph.js — _createAttributes / _createEdge;
* src/src/index.js — _processQueryGraph error policy and the main query loop;
* src/unnamed/part_000 — InvalidQueryGraphError.

JavaScript data is modelled as plain Lean data: JS objects used as maps become
association lists in insertion order (JS string-keyed objects preserve
insertion order, which the source relies on), JS Set instances become lists
holding the first occurrence of each element, and JS array mutation is made
explicit by threading values.  Code of the repository that is not under src/
(helper.js, query_node.js, edge_manager.js) is modelled from the spec; each
such definition is marked in its doc comment.
-/

namespace BTE

/-! ## JavaScript container helpers -/

/-- JS Set#add on a list holding the set in insertion order: append the
element unless it is already present. -/
def jsAdd {α : Type} [DecidableEq α] (l : List α) (x : α) : List α :=
  if x ∈ l then l else l ++ [x]

/-- Fuelled worker for jsDedup; the fuel only serves to make the recursion
structural, and is always called with at least the length of the list. -/
def jsDedupF {α : Type} [DecidableEq α] : Nat → List α → List α
  | 0, _ => []
  | _ + 1, [] => []
  | n + 1, a :: l => a :: jsDedupF n (l.filter (fun b => b ≠ a))

/-- First-occurrence de-duplication, the list observed when iterating a JS
Set built by inserting the elements of the input list in order. -/
def jsDedup {α : Type} [DecidableEq α] (l : List α) : List α :=
  jsDedupF l.length l

/-- Fuelled worker for groupByKey; the fuel only serves to make the
recursion structural, and is always called with at least the length of the
list. -/
def groupByKeyF {α κ : Type} [DecidableEq κ] (f : α → κ) : Nat → List α → List (κ × List α)
  | 0, _ => []
  | _ + 1, [] => []
  | n + 1, a :: l =>
      (f a, a :: l.filter (fun b => f b = f a)) :: groupByKeyF f n (l.filter (fun b => ¬(f b = f a)))

/-- Grouping of a list by a key function, producing one group per distinct
key, keys in first-occurrence order, members in input order.  This is the
observable behaviour of accumulating into a string-keyed JS object and
iterating it with toPairs. -/
def groupByKey {α κ : Type} [DecidableEq κ] (f : α → κ) (l : List α) : List (κ × List α) :=
  groupByKeyF f l.length l

/-- Lexicographic comparison of character lists by code point, the order JS
Array#sort applies to strings with the default comparator. -/
def charsLe : List Char → List Char → Bool
  | [], _ => true
  | _ :: _, [] => false
  | a :: as, b :: bs =>
    if a.toNat < b.toNat then true
    else if b.toNat < a.toNat then false
    else charsLe as bs

/-- The default JS string comparison used by Array#sort. -/
def jsStrLe (s t : String) : Bool := charsLe s.data t.data

theorem charsLe_total : ∀ x y : List Char, charsLe x y = true ∨ charsLe y x = true
  | [], _ => Or.inl rfl
  | _ :: _, [] => Or.inr rfl
  | a :: as, b :: bs => by
    by_cases h1 : a.toNat < b.toNat
    · left; simp [charsLe, h1]
    · by_cases h2 : b.toNat < a.toNat
      · right; simp [charsLe, h2]
      · rcases charsLe_total as bs with h | h
        · left; simp [charsLe, h1, h2, h]
        · right; simp [charsLe, h1, h2, h]

theorem charsLe_trans : ∀ x y z : List Char,
    charsLe x y = true → charsLe y z = true → charsLe x z = true
  | [], _, _ => fun _ _ => rfl
  | a :: as, [], _ => by intro h; simp [charsLe] at h
  | a :: as, b :: bs, [] => by intro _ h; simp [charsLe] at h
  | a :: as, b :: bs, c :: cs => by
    intro h1 h2
    simp only [charsLe] at h1 h2 ⊢
    split_ifs at h1 h2 ⊢ <;> try rfl
    all_goals try omega
    all_goals try simp_all
    exact charsLe_trans as bs cs h1 h2

theorem charsLe_antisymm : ∀ x y : List Char,
    charsLe x y = true → charsLe y x = true → x = y
  | [], [] => fun _ _ => rfl
  | [], _ :: _ => by intro _ h; simp [charsLe] at h
  | _ :: _, [] => by intro h _; simp [charsLe] at h
  | a :: as, b :: bs => by
    intro h1 h2
    simp only [charsLe] at h1 h2
    by_cases hab : a.toNat < b.toNat
    · rw [if_neg (by omega : ¬ b.toNat < a.toNat), if_pos hab] at h2
      exact absurd h2 (by simp)
    · by_cases hba : b.toNat < a.toNat
      · rw [if_neg hab, if_pos hba] at h1
        exact absurd h1 (by simp)
      · rw [if_neg hab, if_neg hba] at h1
        rw [if_neg hba, if_neg hab] at h2
        have hval : a = b := by
          apply Char.ext
          apply UInt32.eq_of_toBitVec_eq
          apply BitVec.eq_of_toNat_eq
          show a.toNat = b.toNat
          omega
        rw [hval, charsLe_antisymm as bs h1 h2]

theorem jsStrLe_total (a b : String) : jsStrLe a b = true ∨ jsStrLe b a = true :=
  charsLe_total a.data b.data

theorem jsStrLe_trans {a b c : String} (h1 : jsStrLe a b = true) (h2 : jsStrLe b c = true) :
    jsStrLe a c = true :=
  charsLe_trans a.data b.data c.data h1 h2

theorem jsStrLe_antisymm {a b : String} (h1 : jsStrLe a b = true) (h2 : jsStrLe b a = true) :
    a = b := by
  cases a with
  | mk da =>
    cases b with
    | mk db => exact congrArg String.mk (charsLe_antisymm da db h1 h2)

instance : IsTotal String (fun a b => jsStrLe a b = true) := ⟨jsStrLe_total⟩

instance : IsTrans String (fun a b => jsStrLe a b = true) :=
  ⟨fun _ _ _ h1 h2 => jsStrLe_trans h1 h2⟩

instance : IsAntisymm String (fun a b => jsStrLe a b = true) :=
  ⟨fun _ _ h1 h2 => jsStrLe_antisymm h1 h2⟩

/-- JS Array#join with a separator. -/
def joinSep (sep : String) : List String → String
  | [] => ""
  | [a] => a
  | a :: b :: rest => a ++ sep ++ joinSep sep (b :: rest)

/-- Insert-or-replace on an insertion-ordered association list: the behaviour
of assigning to a key of a JS object (an existing key keeps its position, a
new key is appended). -/
def jsUpsert {β : Type} (m : List (String × β)) (k : String) (v : β) : List (String × β) :=
  if m.any (fun p => p.1 = k) then
    m.map (fun p => if p.1 = k then (k, v) else p)
  else m ++ [(k, v)]

/-! Basic lemmas about the container helpers.  The fuelled workers are
insensitive to the exact fuel as long as it covers the list length, which
yields the natural unfolding equations for jsDedup and groupByKey. -/

theorem jsDedupF_congr {α : Type} [DecidableEq α] :
    ∀ (n m : Nat) (l : List α), l.length ≤ n → l.length ≤ m →
      jsDedupF n l = jsDedupF m l := by
  intro n
  induction n with
  | zero =>
    intro m l h1 _
    have hl : l = [] := List.eq_nil_of_length_eq_zero (Nat.le_zero.mp h1)
    subst hl
    cases m <;> simp [jsDedupF]
  | succ n ih =>
    intro m l h1 h2
    cases l with
    | nil => cases m <;> simp [jsDedupF]
    | cons a l =>
      cases m with
      | zero => simp at h2
      | succ m =>
        simp only [jsDedupF]
        refine congrArg (fun t => a :: t) (ih m _ ?_ ?_)
        · exact le_trans (List.length_filter_le _ _) (by simp at h1; omega)
        · exact le_trans (List.length_filter_le _ _) (by simp at h2; omega)

theorem jsDedup_nil {α : Type} [DecidableEq α] : jsDedup ([] : List α) = [] := rfl

theorem jsDedup_cons {α : Type} [DecidableEq α] (a : α) (l : List α) :
    jsDedup (a :: l) = a :: jsDedup (l.filter (fun b => b ≠ a)) := by
  unfold jsDedup
  simp only [List.length_cons, jsDedupF]
  exact congrArg (fun t => a :: t)
    (jsDedupF_congr _ _ _ (List.length_filter_le _ _) le_rfl)

theorem groupByKeyF_congr {α κ : Type} [DecidableEq κ] (f : α → κ) :
    ∀ (n m : Nat) (l : List α), l.length ≤ n → l.length ≤ m →
      groupByKeyF f n l = groupByKeyF f m l := by
  intro n
  induction n with
  | zero =>
    intro m l h1 _
    have hl : l = [] := List.eq_nil_of_length_eq_zero (Nat.le_zero.mp h1)
    subst hl
    cases m <;> simp [groupByKeyF]
  | succ n ih =>
    intro m l h1 h2
    cases l with
    | nil => cases m <;> simp [groupByKeyF]
    | cons a l =>
      cases m with
      | zero => simp at h2
      | succ m =>
        simp only [groupByKeyF]
        refine congrArg (fun t => (f a, a :: l.filter (fun b => f b = f a)) :: t) (ih m _ ?_ ?_)
        · exact le_trans (List.length_filter_le _ _) (by simp at h1; omega)
        · exact le_trans (List.length_filter_le _ _) (by simp at h2; omega)

theorem groupByKey_nil {α κ : Type} [DecidableEq κ] (f : α → κ) :
    groupByKey f ([] : List α) = [] := rfl

theorem groupByKey_cons {α κ : Type} [DecidableEq κ] (f : α → κ) (a : α) (l : List α) :
    groupByKey f (a :: l) =
      (f a, a :: l.filter (fun b => f b = f a)) ::
        groupByKey f (l.filter (fun b => ¬(f b = f a))) := by
  unfold groupByKey
  simp only [List.length_cons, groupByKeyF]
  exact congrArg (fun t => (f a, a :: l.filter (fun b => f b = f a)) :: t)
    (groupByKeyF_congr f _ _ _ (List.length_filter_le _ _) le_rfl)

theorem mem_jsAdd {α : Type} [DecidableEq α] {l : List α} {x a : α} :
    a ∈ jsAdd l x ↔ a ∈ l ∨ a = x := by
  unfold jsAdd
  split
  · rename_i h
    constructor
    · exact fun h2 => Or.inl h2
    · rintro (h2 | rfl)
      · exact h2
      · exact h
  · simp [List.mem_append]

theorem nodup_jsAdd {α : Type} [DecidableEq α] {l : List α} (x : α) (h : l.Nodup) :
    (jsAdd l x).Nodup := by
  unfold jsAdd
  split
  · exact h
  · rename_i hx
    simpa [List.nodup_append, h] using hx

theorem mem_jsDedup {α : Type} [DecidableEq α] : ∀ (l : List α) (a : α),
    a ∈ jsDedup l ↔ a ∈ l
  | [], a => by simp [jsDedup_nil]
  | b :: l, a => by
    rw [jsDedup_cons]
    by_cases hab : a = b
    · subst hab; simp
    · simp only [List.mem_cons, hab, false_or]
      rw [mem_jsDedup (l.filter (fun c => c ≠ b)) a]
      simp [List.mem_filter, hab]
termination_by l => l.length
decreasing_by
  simp only [List.length_cons]
  exact Nat.lt_succ_of_le (List.length_filter_le _ _)

theorem nodup_jsDedup {α : Type} [DecidableEq α] : ∀ (l : List α), (jsDedup l).Nodup
  | [] => by simp [jsDedup_nil]
  | b :: l => by
    rw [jsDedup_cons]
    refine List.nodup_cons.mpr ⟨?_, nodup_jsDedup (l.filter (fun c => c ≠ b))⟩
    intro hmem
    rw [mem_jsDedup] at hmem
    simp [List.mem_filter] at hmem
termination_by l => l.length
decreasing_by
  simp only [List.length_cons]
  exact Nat.lt_succ_of_le (List.length_filter_le _ _)

/-! ## Results assembler (src/src/query_results.js)

The assembler sees each record only through the helper accessors
(_getInputQueryNodeID, _getOutputQueryNodeID, _getInputCurie, _getOutputCurie,
_getRecordHash, _getInputIsSet, _getOutputIsSet).  helper.js is not under
src/; per the spec (§3, Record) these extract the endpoint query-node ids,
primary curies, the record hash and the per-endpoint is_set flags, so they
are modelled as field projections of the record. -/

/-- A record as observed by the results assembler through the helper
accessors.  Modelled from the spec: helper.js is not under src/; its record
accessors are field projections here. -/
structure ARecord where
  inputQNodeID : String
  outputQNodeID : String
  inputPrimaryCurie : String
  outputPrimaryCurie : String
  recordHash : String
  inputIsSet : Bool
  outputIsSet : Bool
deriving DecidableEq, Repr

/-- The per-QEdge data handed to QueryResult.update: the records surviving
for that edge together with the ids of the connected query edges. -/
structure EdgeData where
  connected_to : List String
  records : List ARecord
deriving DecidableEq, Repr

/-- recordsByQEdgeID: a string-keyed JS object in insertion order. -/
abbrev DataByEdge := List (String × EdgeData)

/-- Object property access recordsByQEdgeID[qEdgeID]. -/
def lookupEdgeData (data : DataByEdge) (k : String) : Option EdgeData :=
  (data.find? (fun p => p.1 = k)).map Prod.snd

/-- One entry of a preresult (unconsolidated result), as pushed by
_getUnconsolidatedResults. -/
structure PreEntry where
  inputQNodeID : String
  outputQNodeID : String
  inputPrimaryCurie : String
  outputPrimaryCurie : String
  qEdgeID : String
  recordHash : String
deriving DecidableEq, Repr

/-- The tuple pushed for one record of the current query edge. -/
def mkPreEntry (qEdgeID : String) (r : ARecord) : PreEntry :=
  ⟨r.inputQNodeID, r.outputQNodeID, r.inputPrimaryCurie, r.outputPrimaryCurie,
   qEdgeID, r.recordHash⟩

/-- The recursive preresult enumeration _getUnconsolidatedResults.

The JS function communicates through two mutable arrays: ucResults (the
accumulator of complete preresults) and ucResult (the running path).  The
running path is shared by reference: the push performed for the first
matching record of a call mutates the caller's array, so the caller passes
the extended path on to the next connected edge; records after the first work
on fresh copies of the clone taken at entry.  This function returns the pair
(complete preresults pushed, final value of the shared running path); the
second component realizes exactly the mutations the caller's array receives.
Complete preresults are recorded as snapshots at push time (for tree-shaped
query graphs, the code comment's stated scope, a pushed path is never mutated
afterwards).  The fuel argument bounds the recursion depth; the JS recursion
terminates only on tree-shaped inputs, on which a fuel of one plus the number
of query edges suffices (each recursion level extends the path by one entry
or returns at once on a node mismatch). -/
def goUC (data : DataByEdge) (edgeCount : Nat) :
    Nat → String → List PreEntry → Option String → Option String →
    List (List PreEntry) × List PreEntry
  | 0, _, ucResult, _, _ => ([], ucResult)
  | Nat.succ fuel, qEdgeID, ucResult, qNodeIDToMatch, primaryCurieToMatch =>
    match lookupEdgeData data qEdgeID with
    | none => ([], ucResult)
    | some ed =>
      match ed.records.head? with
      | none => ([], ucResult)
      | some record0 =>
        let inputQNodeID := record0.inputQNodeID
        let outputQNodeID := record0.outputQNodeID
        let dir : Option ((ARecord → String) × String × (ARecord → String)) :=
          if qNodeIDToMatch = none ∨ qNodeIDToMatch = some inputQNodeID then
            some ((fun r => r.inputPrimaryCurie), outputQNodeID, (fun r => r.outputPrimaryCurie))
          else if qNodeIDToMatch = some outputQNodeID then
            some ((fun r => r.outputPrimaryCurie), inputQNodeID, (fun r => r.inputPrimaryCurie))
          else none
        match dir with
        | none => ([], ucResult)
        | some (getMatchingPrimaryCurie, otherQNodeID, getOtherPrimaryCurie) =>
          let ucResultClone := ucResult
          let matching := ed.records.filter
            (fun r => primaryCurieToMatch = some (getMatchingPrimaryCurie r) ∨
                      primaryCurieToMatch = none)
          let step : List PreEntry → ARecord → List (List PreEntry) × List PreEntry :=
            fun cur r =>
              let cur1 := cur ++ [mkPreEntry qEdgeID r]
              let emitted := if cur1.length = edgeCount then [cur1] else []
              let folded := ed.connected_to.foldl
                (fun (acc : List (List PreEntry) × List PreEntry) connectedQEdgeID =>
                  let res := goUC data edgeCount fuel connectedQEdgeID acc.2
                    (some otherQNodeID) (some (getOtherPrimaryCurie r))
                  (acc.1 ++ res.1, res.2))
                ([], cur1)
              (emitted ++ folded.1, folded.2)
          match matching with
          | [] => ([], ucResult)
          | r0 :: rest =>
            let first := step ucResult r0
            let restResults := rest.map (fun r => (step ucResultClone r).1)
            (first.1 ++ restResults.flatten, first.2)

/-- The QNode ids carrying is_set, read off the first record of every edge
(update, lines 231-243). -/
def isSetNodes (data : DataByEdge) : List String :=
  data.foldl
    (fun acc p =>
      match p.2.records.head? with
      | none => acc
      | some r0 =>
        let acc1 := if r0.inputIsSet then jsAdd acc r0.inputQNodeID else acc
        if r0.outputIsSet then jsAdd acc1 r0.outputQNodeID else acc1)
    []

/-- Root-edge candidate from one (qEdgeID, edge data) pair: an edge with no
connections, or one whose input (respectively output) node does not occur on
some connected edge.  The second test compares the output node against the
connected edge's output node only, mirroring the doubled outputQNodeID_1 in
the source (update, line 268). -/
def rootFromPair (data : DataByEdge) (qEdgeID : String) (ed : EdgeData) :
    Option (String × String) :=
  match ed.records.head? with
  | none => none
  | some r0 =>
    if ed.connected_to.isEmpty then some (qEdgeID, r0.inputQNodeID)
    else
      ed.connected_to.findSome? (fun c =>
        match lookupEdgeData data c with
        | none => none
        | some ned =>
          match ned.records.head? with
          | none => none
          | some nr0 =>
            if r0.inputQNodeID ≠ nr0.inputQNodeID ∧ r0.inputQNodeID ≠ nr0.outputQNodeID then
              some (qEdgeID, r0.inputQNodeID)
            else if r0.outputQNodeID ≠ nr0.outputQNodeID then
              some (qEdgeID, r0.outputQNodeID)
            else none)

/-- The root edge and starting query node chosen for the tree traversal
(update, lines 248-283): the first pair in insertion order producing a
candidate. -/
def rootSelection (data : DataByEdge) : Option (String × String) :=
  data.findSome? (fun p => rootFromPair data p.1 p.2)

/-- qEdgeCount: the size of the Set of the object's keys. -/
def qEdgeCount (data : DataByEdge) : Nat :=
  (jsDedup (data.map Prod.fst)).length

/-- All preresults enumerated by update before consolidation. -/
def enumeratePreresults (data : DataByEdge) : List (List PreEntry) :=
  match rootSelection data with
  | none => []
  | some (initialQEdgeID, initialQNodeIDToMatch) =>
    (goUC data (qEdgeCount data) (data.length + 2) initialQEdgeID []
      (some initialQNodeIDToMatch) none).1

/-- The _getUniqueNodeID helper: the QNode id alone under is_set, otherwise
the QNode id, a dash, and the primary curie. -/
def uniqueNodeID (isSet : List String) (qNodeID : String) (primaryCurie : String) : String :=
  if qNodeID ∈ isSet then qNodeID else qNodeID ++ "-" ++ primaryCurie

/-- One step of building the uniqueNodeIDs Set: add the input token, then
the output token, of one preresult entry. -/
def tokenStep (isSet : List String) (acc : List String) (e : PreEntry) : List String :=
  jsAdd (jsAdd acc (uniqueNodeID isSet e.inputQNodeID e.inputPrimaryCurie))
    (uniqueNodeID isSet e.outputQNodeID e.outputPrimaryCurie)

/-- The JS Set of uniqueNodeIDs of one preresult, in insertion order: for
each entry the input token then the output token. -/
def preresultTokens (isSet : List String) (p : List PreEntry) : List String :=
  p.foldl (tokenStep isSet) []

/-- uniqueResultID (update, lines 329-348): the sorted token set joined with
the reserved separator. -/
def uniqueResultID (isSet : List String) (p : List PreEntry) : String :=
  joinSep "_&_" (List.insertionSort (fun a b => jsStrLe a b = true) (preresultTokens isSet p))

/-- One merged per-edge record of a consolidated preresult (update, lines
365-391): curies and hashes are JS Sets, held in insertion order. -/
structure ConsolidatedRecord where
  inputQNodeID : String
  outputQNodeID : String
  inputPrimaryCuries : List String
  outputPrimaryCuries : List String
  qEdgeID : String
  recordHashes : List String
deriving DecidableEq, Repr

/-- The columns produced by zipping the preresults of one group (lodash
spread(zip)): column i collects the i-th entry of every group member.  Every
member of a group has length edgeCount, the only length at which paths are
pushed. -/
def zipColumns (edgeCount : Nat) (rows : List (List PreEntry)) : List (List PreEntry) :=
  (List.range edgeCount).map (fun i => rows.filterMap (fun row => row[i]?))

/-- Merge one group of preresults into its consolidated per-edge records. -/
def consolidateGroup (edgeCount : Nat) (rows : List (List PreEntry)) :
    List ConsolidatedRecord :=
  (zipColumns edgeCount rows).filterMap (fun col =>
    match col.head? with
    | none => none
    | some r0 =>
      some { inputQNodeID := r0.inputQNodeID
             outputQNodeID := r0.outputQNodeID
             inputPrimaryCuries := jsDedup (col.map (fun e => e.inputPrimaryCurie))
             outputPrimaryCuries := jsDedup (col.map (fun e => e.outputPrimaryCurie))
             qEdgeID := r0.qEdgeID
             recordHashes := jsDedup (col.map (fun e => e.recordHash)) })

/-- A TRAPI result as emitted by the assembler.  Node and edge bindings are
JS objects in insertion order; each binding list holds the ids of the
bindings (each JS binding is the one-field object with that id).  The score
field of the source is the placeholder 1.0 and is not modelled. -/
structure AssembledResult where
  node_bindings : List (String × List String)
  edge_bindings : List (String × List String)
deriving DecidableEq, Repr

/-- Format one consolidated group as a TRAPI result (update, lines 397-427):
assignments to node_bindings and edge_bindings in consolidated-record
order. -/
def mkResult (cRecs : List ConsolidatedRecord) : AssembledResult :=
  cRecs.foldl
    (fun res cr =>
      { node_bindings :=
          jsUpsert (jsUpsert res.node_bindings cr.inputQNodeID cr.inputPrimaryCuries)
            cr.outputQNodeID cr.outputPrimaryCuries
        edge_bindings := jsUpsert res.edge_bindings cr.qEdgeID cr.recordHashes })
    ⟨[], []⟩

/-- ucResultsByResultID (update, lines 317-363): the preresults grouped by
their uniqueResultID. -/
def assembleGroups (data : DataByEdge) : List (String × List (List PreEntry)) :=
  groupByKey (fun p => uniqueResultID (isSetNodes data) p) (enumeratePreresults data)

/-- The full update pipeline: enumerate, group, consolidate, format. -/
def assembleResults (data : DataByEdge) : List AssembledResult :=
  (assembleGroups data).map (fun g => mkResult (consolidateGroup (qEdgeCount data) g.2))

/-- The state of a QueryResult instance: its _results property. -/
structure QueryResultState where
  results : List AssembledResult
deriving DecidableEq, Repr

/-- A freshly constructed QueryResult: _results is the empty list. -/
def initialQueryResultState : QueryResultState := ⟨[]⟩

/-- QueryResult#update: clears _results and stores the results assembled
from the given input, discarding any previous state. -/
def QueryResultState.update (_s : QueryResultState) (data : DataByEdge) : QueryResultState :=
  ⟨assembleResults data⟩

/-- QueryResult#getResults. -/
def QueryResultState.getResults (s : QueryResultState) : List AssembledResult :=
  s.results

/-! ### Spec-side description of the consolidation key

Following the specification's words (§4.6 Step 2): for each node occurrence
of the preresult form the token — QNodeID alone under is_set, else
QNodeID-curie — collect the tokens into a set, sort, and join with the
reserved separator. -/

/-- The per-node tokens of a preresult, one for each node occurrence. -/
def claimTokens (isSet : List String) (p : List PreEntry) : List String :=
  p.flatMap (fun e =>
    [uniqueNodeID isSet e.inputQNodeID e.inputPrimaryCurie,
     uniqueNodeID isSet e.outputQNodeID e.outputPrimaryCurie])

/-- The consolidation key as the specification states it: the set of
per-node tokens, sorted, joined with the reserved separator. -/
def consolidationKeySpec (isSet : List String) (p : List PreEntry) : String :=
  joinSep "_&_" ((claimTokens isSet p).toFinset.sort (fun a b => jsStrLe a b = true))

theorem claimTokens_cons (isSet : List String) (e : PreEntry) (p : List PreEntry) :
    claimTokens isSet (e :: p) =
      uniqueNodeID isSet e.inputQNodeID e.inputPrimaryCurie ::
        uniqueNodeID isSet e.outputQNodeID e.outputPrimaryCurie :: claimTokens isSet p := by
  simp [claimTokens]

theorem mem_foldl_tokenStep (isSet : List String) :
    ∀ (p : List PreEntry) (acc : List String) (a : String),
      a ∈ p.foldl (tokenStep isSet) acc ↔ a ∈ acc ∨ a ∈ claimTokens isSet p := by
  intro p
  induction p with
  | nil => intro acc a; simp [claimTokens]
  | cons e p ih =>
    intro acc a
    rw [List.foldl_cons, ih, claimTokens_cons]
    simp only [tokenStep, mem_jsAdd, List.mem_cons]
    tauto

theorem nodup_foldl_tokenStep (isSet : List String) :
    ∀ (p : List PreEntry) (acc : List String), acc.Nodup →
      (p.foldl (tokenStep isSet) acc).Nodup := by
  intro p
  induction p with
  | nil => intro acc h; simpa using h
  | cons e p ih =>
    intro acc h
    rw [List.foldl_cons]
    exact ih _ (nodup_jsAdd _ (nodup_jsAdd _ h))

theorem mem_preresultTokens (isSet : List String) (p : List PreEntry) (a : String) :
    a ∈ preresultTokens isSet p ↔ a ∈ claimTokens isSet p := by
  rw [preresultTokens, mem_foldl_tokenStep]
  simp

theorem nodup_preresultTokens (isSet : List String) (p : List PreEntry) :
    (preresultTokens isSet p).Nodup :=
  nodup_foldl_tokenStep isSet p [] List.nodup_nil

/-- The sorted token list computed by the source equals the sorted token set
the specification describes. -/
theorem sortedTokens_eq (isSet : List String) (p : List PreEntry) :
    List.insertionSort (fun a b => jsStrLe a b = true) (preresultTokens isSet p) =
      (claimTokens isSet p).toFinset.sort (fun a b => jsStrLe a b = true) := by
  have hperm : List.Perm
      (List.insertionSort (fun a b => jsStrLe a b = true) (preresultTokens isSet p))
      (preresultTokens isSet p) := List.perm_insertionSort _ _
  apply List.eq_of_perm_of_sorted (r := fun a b : String => jsStrLe a b = true)
  · rw [List.perm_ext_iff_of_nodup (hperm.nodup_iff.mpr (nodup_preresultTokens isSet p))
      (Finset.sort_nodup _ _)]
    intro a
    rw [hperm.mem_iff, Finset.mem_sort, List.mem_toFinset, mem_preresultTokens]
  · exact List.sorted_insertionSort _ _
  · exact Finset.sort_sorted _ _

/-- The consolidation key computed by the source equals the key the
specification describes, for every is_set node set and preresult. -/
theorem uniqueResultID_eq_spec (isSet : List String) (p : List PreEntry) :
    uniqueResultID isSet p = consolidationKeySpec isSet p := by
  rw [uniqueResultID, consolidationKeySpec, sortedTokens_eq]

/-! ### Lemmas about groupByKey -/

theorem map_filter_key {α κ : Type} (f : α → κ) (p : κ → Bool) : ∀ l : List α,
    (l.filter (fun b => p (f b))).map f = (l.map f).filter p := by
  intro l
  induction l with
  | nil => rfl
  | cons a l ih => by_cases h : p (f a) <;> simp [List.filter_cons, h, ih]

theorem groupByKey_keys {α κ : Type} [DecidableEq κ] (f : α → κ) : ∀ l : List α,
    (groupByKey f l).map Prod.fst = jsDedup (l.map f)
  | [] => by simp [groupByKey_nil, jsDedup_nil]
  | a :: l => by
    rw [groupByKey_cons]
    simp only [List.map_cons]
    rw [jsDedup_cons]
    refine congrArg (fun t => f a :: t) ?_
    rw [groupByKey_keys f (l.filter (fun b => ¬(f b = f a)))]
    refine congrArg jsDedup ?_
    have h := map_filter_key f (fun k => decide ¬(k = f a)) l
    simpa using h
termination_by l => l.length
decreasing_by
  simp only [List.length_cons]
  exact Nat.lt_succ_of_le (List.length_filter_le _ _)

theorem groupByKey_mem_key {α κ : Type} [DecidableEq κ] (f : α → κ) :
    ∀ (l : List α) (g : κ × List α), g ∈ groupByKey f l → ∀ a ∈ g.2, f a = g.1
  | [] => by simp [groupByKey_nil]
  | b :: l => by
    intro g hg a ha
    rw [groupByKey_cons] at hg
    rcases List.mem_cons.mp hg with rfl | hg
    · rcases List.mem_cons.mp ha with rfl | ha
      · rfl
      · have := (List.mem_filter.mp ha).2
        simpa using this
    · exact groupByKey_mem_key f (l.filter (fun c => ¬(f c = f b))) g hg a ha
termination_by l => l.length
decreasing_by
  simp only [List.length_cons]
  exact Nat.lt_succ_of_le (List.length_filter_le _ _)

theorem groupByKey_exists {α κ : Type} [DecidableEq κ] (f : α → κ) :
    ∀ (l : List α) (a : α), a ∈ l → ∃ g ∈ groupByKey f l, g.1 = f a ∧ a ∈ g.2
  | [] => by simp
  | b :: l => by
    intro a ha
    rw [groupByKey_cons]
    rcases List.mem_cons.mp ha with rfl | ha
    · exact ⟨(f a, a :: l.filter (fun c => f c = f a)), List.mem_cons_self _ _,
        rfl, List.mem_cons_self _ _⟩
    · by_cases h : f a = f b
      · refine ⟨(f b, b :: l.filter (fun c => f c = f b)), List.mem_cons_self _ _, h.symm, ?_⟩
        exact List.mem_cons_of_mem _ (List.mem_filter.mpr ⟨ha, by simpa using h⟩)
      · have hmem : a ∈ l.filter (fun c => ¬(f c = f b)) :=
          List.mem_filter.mpr ⟨ha, by simpa using h⟩
        obtain ⟨g, hg, h1, h2⟩ :=
          groupByKey_exists f (l.filter (fun c => ¬(f c = f b))) a hmem
        exact ⟨g, List.mem_cons_of_mem _ hg, h1, h2⟩
termination_by l => l.length
decreasing_by
  simp only [List.length_cons]
  exact Nat.lt_succ_of_le (List.length_filter_le _ _)

theorem groupByKey_keys_nodup {α κ : Type} [DecidableEq κ] (f : α → κ) (l : List α) :
    ((groupByKey f l).map Prod.fst).Nodup := by
  rw [groupByKey_keys]
  exact nodup_jsDedup _

/-- C1.  For every preresult produced by the results assembler, its
consolidated result identifier is the one the specification describes: per
node occurrence, the QNode id alone under is_set and otherwise the QNode id,
a dash, and the primary curie; the tokens collected into a set, sorted, and
joined with the reserved separator.  The first conjunct settles the key
computation for every is_set set and preresult; the second states that the
grouping performed by update uses exactly that key. -/
theorem c1_consolidation_key :
    (∀ (isSet : List String) (p : List PreEntry),
       uniqueResultID isSet p = consolidationKeySpec isSet p) ∧
    (∀ data : DataByEdge,
       assembleGroups data =
         groupByKey (fun p => consolidationKeySpec (isSetNodes data) p)
           (enumeratePreresults data)) := by
  refine ⟨uniqueResultID_eq_spec, fun data => ?_⟩
  exact congrArg (fun f => groupByKey f (enumeratePreresults data))
    (funext (fun p => uniqueResultID_eq_spec (isSetNodes data) p))

/-- C2.  Consolidation law of the results assembler: the number of emitted
results equals the number of distinct consolidation keys over the enumerated
preresults; two preresults share a group exactly when their consolidation
keys agree; and every enumerated preresult lands in exactly one group (each
group becoming one emitted result). -/
theorem c2_consolidation_law (data : DataByEdge) :
    ((assembleResults data).length =
       (jsDedup ((enumeratePreresults data).map
         (fun p => uniqueResultID (isSetNodes data) p))).length) ∧
    (∀ p ∈ enumeratePreresults data, ∀ q ∈ enumeratePreresults data,
       ((∃ g ∈ assembleGroups data, p ∈ g.2 ∧ q ∈ g.2) ↔
         uniqueResultID (isSetNodes data) p = uniqueResultID (isSetNodes data) q)) ∧
    (∀ p ∈ enumeratePreresults data,
       ∃! i : Fin (assembleGroups data).length, p ∈ ((assembleGroups data).get i).2) := by
  have hgr : assembleGroups data =
      groupByKey (fun p => uniqueResultID (isSetNodes data) p)
        (enumeratePreresults data) := rfl
  refine ⟨?_, ?_, ?_⟩
  · rw [assembleResults, List.length_map, hgr]
    have h := congrArg List.length
      (groupByKey_keys (fun p => uniqueResultID (isSetNodes data) p)
        (enumeratePreresults data))
    rw [List.length_map] at h
    exact h
  · intro p hp q hq
    constructor
    · rintro ⟨g, hg, hpg, hqg⟩
      rw [hgr] at hg
      have h1 := groupByKey_mem_key _ _ g hg p hpg
      have h2 := groupByKey_mem_key _ _ g hg q hqg
      rw [h1, h2]
    · intro hpq
      obtain ⟨g, hg, hk, hpg⟩ := groupByKey_exists
        (fun p => uniqueResultID (isSetNodes data) p) (enumeratePreresults data) p hp
      obtain ⟨g2, hg2, hk2, hqg⟩ := groupByKey_exists
        (fun p => uniqueResultID (isSetNodes data) p) (enumeratePreresults data) q hq
      have hgg : g = g2 :=
        List.inj_on_of_nodup_map (groupByKey_keys_nodup _ _) hg hg2 (by rw [hk, hk2, hpq])
      exact ⟨g, show g ∈ assembleGroups data from hg, hpg, hgg ▸ hqg⟩
  · intro p hp
    obtain ⟨g, hg, hk, hpg⟩ := groupByKey_exists
      (fun p => uniqueResultID (isSetNodes data) p) (enumeratePreresults data) p hp
    obtain ⟨i, hi⟩ := List.mem_iff_get.mp (show g ∈ assembleGroups data from hg)
    have hnodupKeys : ((assembleGroups data).map Prod.fst).Nodup :=
      groupByKey_keys_nodup (fun p => uniqueResultID (isSetNodes data) p)
        (enumeratePreresults data)
    refine ⟨i, ?_, ?_⟩
    · show p ∈ ((assembleGroups data).get i).2
      rw [hi]; exact hpg
    · intro j hj
      have hj2 : p ∈ ((assembleGroups data).get j).2 := hj
      have hmj : (assembleGroups data).get j ∈ assembleGroups data :=
        (assembleGroups data).get_mem j.1 j.2
      have hmi : (assembleGroups data).get i ∈ assembleGroups data :=
        (assembleGroups data).get_mem i.1 i.2
      have k1 : (fun p => uniqueResultID (isSetNodes data) p) p =
          ((assembleGroups data).get j).1 :=
        groupByKey_mem_key (fun p => uniqueResultID (isSetNodes data) p)
          (enumeratePreresults data) _ hmj p hj2
      have k2 : (fun p => uniqueResultID (isSetNodes data) p) p =
          ((assembleGroups data).get i).1 :=
        groupByKey_mem_key (fun p => uniqueResultID (isSetNodes data) p)
          (enumeratePreresults data) _ hmi p (by rw [hi]; exact hpg)
      have hget : (assembleGroups data).get j = (assembleGroups data).get i :=
        List.inj_on_of_nodup_map hnodupKeys hmj hmi (by rw [← k1, k2])
      have hnd : (assembleGroups data).Nodup := List.Nodup.of_map Prod.fst hnodupKeys
      exact List.nodup_iff_injective_get.mp hnd hget

/-- The two-hop gene-disease-gene instance of the repository's own
results-assembly exercise (src/src/results_assembly/extract_gene_id.js). -/
def exData : DataByEdge :=
  [("e01", ⟨["e02"], [⟨"n1", "n2", "NCBIGene:3778", "MONDO:0011122", "h1", false, false⟩]⟩),
   ("e02", ⟨["e01"], [⟨"n3", "n2", "NCBIGene:7289", "MONDO:0011122", "h2", false, false⟩]⟩)]

/-- The single preresult the two-hop instance enumerates. -/
def exPre : List PreEntry :=
  [⟨"n1", "n2", "NCBIGene:3778", "MONDO:0011122", "e01", "h1"⟩,
   ⟨"n3", "n2", "NCBIGene:7289", "MONDO:0011122", "e02", "h2"⟩]

theorem c2_consolidation_law_witness :
    ((assembleResults exData).length =
       (jsDedup ((enumeratePreresults exData).map
         (fun p => uniqueResultID (isSetNodes exData) p))).length) ∧
    (∃! i : Fin (assembleGroups exData).length, exPre ∈ ((assembleGroups exData).get i).2) :=
  ⟨(c2_consolidation_law exData).1,
   (c2_consolidation_law exData).2.2 exPre (by decide)⟩

/-- C10.  QueryResult#update fully replaces the stored results: a second
update makes getResults independent of any earlier update, and updating
twice with the same input is idempotent. -/
theorem c10_update_replaces (s : QueryResultState) (r1 r2 : DataByEdge) :
    ((s.update r1).update r2).getResults = (initialQueryResultState.update r2).getResults ∧
    (s.update r1).update r1 = s.update r1 :=
  ⟨rfl, rfl⟩

/-! ### Binding order within a result (claim C8) -/

/-- A single-edge input whose output node carries is_set and whose records
arrive with descending output curies: the two preresults share one
consolidation key, so their output curies are merged into one binding
list in insertion order. -/
def c8Data : DataByEdge :=
  [("e0", ⟨[], [⟨"n0", "n1", "I", "Z", "hz", false, true⟩,
                ⟨"n0", "n1", "I", "A", "ha", false, true⟩]⟩)]

/-- C8, counterexample.  On c8Data the assembler emits one result whose
node_bindings list for n1 is ["Z", "A"], the insertion order of the merged
Set, which is not sorted by curie; likewise the edge_bindings list for e0 is
["hz", "ha"], not sorted by record hash. -/
theorem c8_counterexample :
    (assembleResults c8Data).map (fun r => r.node_bindings) =
      [[("n0", ["I"]), ("n1", ["Z", "A"])]] ∧
    (assembleResults c8Data).map (fun r => r.edge_bindings) =
      [[("e0", ["hz", "ha"])]] ∧
    ¬ List.Sorted (fun a b : String => jsStrLe a b = true) ["Z", "A"] ∧
    ¬ List.Sorted (fun a b : String => jsStrLe a b = true) ["hz", "ha"] := by
  refine ⟨by decide, by decide, by decide, by decide⟩

theorem consolidateGroup_fields_nodup (n : Nat) (rows : List (List PreEntry)) :
    ∀ cr ∈ consolidateGroup n rows,
      cr.inputPrimaryCuries.Nodup ∧ cr.outputPrimaryCuries.Nodup ∧ cr.recordHashes.Nodup := by
  intro cr hcr
  obtain ⟨col, _, hparse⟩ := List.mem_filterMap.mp hcr
  rcases hhead : col.head? with _ | r0 <;> rw [hhead] at hparse
  · simp at hparse
  · simp only [Option.some.injEq] at hparse
    subst hparse
    exact ⟨nodup_jsDedup _, nodup_jsDedup _, nodup_jsDedup _⟩

theorem jsUpsert_forall {β : Type} (P : β → Prop) (m : List (String × β)) (k : String) (v : β)
    (hm : ∀ kv ∈ m, P kv.2) (hv : P v) : ∀ kv ∈ jsUpsert m k v, P kv.2 := by
  intro kv hkv
  unfold jsUpsert at hkv
  split at hkv
  · obtain ⟨q, hq, he⟩ := List.mem_map.mp hkv
    by_cases h : q.1 = k
    · rw [if_pos h] at he
      rw [← he]
      exact hv
    · rw [if_neg h] at he
      rw [← he]
      exact hm q hq
  · rcases List.mem_append.mp hkv with h | h
    · exact hm kv h
    · simp only [List.mem_singleton] at h
      rw [h]
      exact hv

theorem mkResult_nodup_aux :
    ∀ (crs : List ConsolidatedRecord) (acc : AssembledResult),
      (∀ kv ∈ acc.node_bindings, kv.2.Nodup) →
      (∀ kv ∈ acc.edge_bindings, kv.2.Nodup) →
      (∀ cr ∈ crs,
        cr.inputPrimaryCuries.Nodup ∧ cr.outputPrimaryCuries.Nodup ∧ cr.recordHashes.Nodup) →
      (∀ kv ∈ (crs.foldl
          (fun res cr =>
            { node_bindings :=
                jsUpsert (jsUpsert res.node_bindings cr.inputQNodeID cr.inputPrimaryCuries)
                  cr.outputQNodeID cr.outputPrimaryCuries
              edge_bindings := jsUpsert res.edge_bindings cr.qEdgeID cr.recordHashes })
          acc).node_bindings, kv.2.Nodup) ∧
      (∀ kv ∈ (crs.foldl
          (fun res cr =>
            { node_bindings :=
                jsUpsert (jsUpsert res.node_bindings cr.inputQNodeID cr.inputPrimaryCuries)
                  cr.outputQNodeID cr.outputPrimaryCuries
              edge_bindings := jsUpsert res.edge_bindings cr.qEdgeID cr.recordHashes })
          acc).edge_bindings, kv.2.Nodup) := by
  intro crs
  induction crs with
  | nil => intro acc hn he _; exact ⟨hn, he⟩
  | cons cr crs ih =>
    intro acc hn he hcrs
    rw [List.foldl_cons]
    obtain ⟨h1, h2, h3⟩ := hcrs cr (List.mem_cons_self _ _)
    refine ih _ ?_ ?_ (fun c hc => hcrs c (List.mem_cons_of_mem _ hc))
    · exact jsUpsert_forall _ _ _ _
        (jsUpsert_forall _ _ _ _ hn h1) h2
    · exact jsUpsert_forall _ _ _ _ he h3

/-- C8, amended.  Within every emitted result, the node_bindings list of a
QNode id holds each curie exactly once and the edge_bindings list of a QEdge
id holds each record hash exactly once; the order is the first-insertion
order of the merged preresults (deterministic for a given input), not a
sorted order. -/
theorem c8_amended_bindings (data : DataByEdge) :
    ∀ r ∈ assembleResults data,
      (∀ kv ∈ r.node_bindings, kv.2.Nodup) ∧ (∀ kv ∈ r.edge_bindings, kv.2.Nodup) := by
  intro r hr
  obtain ⟨g, _, hmk⟩ := List.mem_map.mp hr
  subst hmk
  exact mkResult_nodup_aux _ ⟨[], []⟩ (by simp) (by simp)
    (consolidateGroup_fields_nodup _ _)

theorem c8_amended_bindings_witness :
    (∀ kv ∈ (({ node_bindings := [("n0", ["I"]), ("n1", ["Z", "A"])]
                edge_bindings := [("e0", ["hz", "ha"])] } : AssembledResult)).node_bindings,
       kv.2.Nodup) ∧
    (∀ kv ∈ (({ node_bindings := [("n0", ["I"]), ("n1", ["Z", "A"])]
                edge_bindings := [("e0", ["hz", "ha"])] } : AssembledResult)).edge_bindings,
       kv.2.Nodup) :=
  c8_amended_bindings c8Data _ (by decide)

/-! ## Invalid-query-graph error boundary (src/unnamed/part_000 and
src/src/index.js _processQueryGraph)

A JS error value is either an InvalidQueryGraphError — whose constructor
fixes the name to the stable string and the statusCode to 400 — or any other
error, which carries a name and no statusCode field. -/

/-- An error value as thrown during query-graph processing. -/
inductive JSError where
  | invalidQueryGraph (message : String)
  | other (name : String) (message : String)
deriving DecidableEq, Repr

/-- The name property: the InvalidQueryGraphError constructor assigns the
stable string, any other error keeps its own name. -/
def JSError.name : JSError → String
  | .invalidQueryGraph _ => "InvalidQueryGraphError"
  | .other n _ => n

/-- The statusCode property: assigned 400 by the InvalidQueryGraphError
constructor, absent on other errors. -/
def JSError.statusCode : JSError → Option Nat
  | .invalidQueryGraph _ => some 400
  | .other _ _ => none

/-- The instanceof InvalidQueryGraphError test. -/
def JSError.isInvalidQueryGraphError : JSError → Bool
  | .invalidQueryGraph _ => true
  | .other _ _ => false

/-- new InvalidQueryGraphError() with the default message. -/
def mkInvalidQueryGraphError : JSError :=
  .invalidQueryGraph "Your Input Query Graph is invalid."

/-- TRAPIQueryHandler._processQueryGraph: run the query-graph calculation;
rethrow an InvalidQueryGraphError as is, and replace any other failure by a
fresh InvalidQueryGraphError. -/
def processQueryGraph {α : Type} (pipeline : Except JSError α) : Except JSError α :=
  match pipeline with
  | .ok v => .ok v
  | .error err =>
    if err.isInvalidQueryGraphError then .error err
    else .error mkInvalidQueryGraphError

/-- C7.  Every failure of query-graph processing surfaces as an error whose
name is the stable string "InvalidQueryGraphError" and whose statusCode is
400; no other error kind propagates out of _processQueryGraph. -/
theorem c7_invalid_query_graph_boundary {α : Type} (pipeline : Except JSError α) (e : JSError)
    (h : processQueryGraph pipeline = .error e) :
    e.name = "InvalidQueryGraphError" ∧ e.statusCode = some 400 ∧
      e.isInvalidQueryGraphError = true := by
  cases pipeline with
  | ok v => simp [processQueryGraph] at h
  | error err =>
    cases err with
    | invalidQueryGraph m =>
      rw [processQueryGraph] at h
      simp only [JSError.isInvalidQueryGraphError, if_pos] at h
      cases h
      exact ⟨rfl, rfl, rfl⟩
    | other n m =>
      rw [processQueryGraph] at h
      simp only [JSError.isInvalidQueryGraphError, Bool.false_eq_true, if_false,
        Except.error.injEq] at h
      subst h
      exact ⟨rfl, rfl, rfl⟩

theorem c7_invalid_query_graph_boundary_witness :
    mkInvalidQueryGraphError.name = "InvalidQueryGraphError" ∧
    mkInvalidQueryGraphError.statusCode = some 400 ∧
    mkInvalidQueryGraphError.isInvalidQueryGraphError = true :=
  @c7_invalid_query_graph_boundary Unit
    (Except.error (JSError.other "TypeError" "boom")) mkInvalidQueryGraphError rfl

/-! ## Knowledge-graph edge attributes (src/src/graph/knowledge_graph.js) -/

/-- An attribute value; downstream attribute bags are heterogeneous, so the
values the claims inspect (lists of strings) are distinguished from any
other payload. -/
inductive AttrValue where
  | strs (vals : List String)
  | count (n : Nat)
  | raw (s : String)
deriving DecidableEq, Repr

/-- One TRAPI attribute of a knowledge-graph edge. -/
structure TrapiAttribute where
  attribute_type_id : String
  value : AttrValue
  value_type_id : Option String
deriving DecidableEq, Repr

/-- The aggregated edge record handed to _createEdge by the graph store.
kgEdge.attributes either carries a TRAPI attribute passthrough under its
attributes key (trapiAttributes here) or is a plain per-api bag iterated
with for-in (attributesBag here). -/
structure KGEdgeM where
  predicate : String
  subject : String
  object : String
  apis : List String
  sources : List String
  inforesCuries : List String
  publications : List String
  trapiAttributes : Option (List TrapiAttribute)
  attributesBag : List (String × AttrValue)
deriving DecidableEq, Repr

/-- The aggregator attribute placed first by _createAttributes. -/
def aggregatorAttribute : TrapiAttribute :=
  { attribute_type_id := "biolink:aggregator_knowledge_source"
    value := .strs ["infores:translator-biothings-explorer"]
    value_type_id := some "biolink:InformationResource" }

/-- The allow-list of curated direct info providers (Situation C). -/
def directInfoProviderAPIs : List String :=
  ["Clinical Risk KP API", "Text Mining Targeted Association API",
   "Multiomics Wellness KP API", "Drug Response KP API",
   "Text Mining Co-occurrence API", "TCGA Mutation Frequency API"]

/-- The for-in pass appending the per-api attribute bag. -/
def bagAttributes (bag : List (String × AttrValue)) : List TrapiAttribute :=
  bag.map (fun kv => { attribute_type_id := kv.1, value := kv.2,
                       value_type_id := some ("bts:" ++ kv.1) })

/-- KnowledgeGraph._createAttributes: the aggregator attribute first, then
either the TRAPI passthrough (Situation A), the allow-listed direct-provider
shape (Situation C), or the generic non-TRAPI shape (Situation B). -/
def createAttributes (e : KGEdgeM) : List TrapiAttribute :=
  let base := [aggregatorAttribute]
  match e.trapiAttributes with
  | some attrs => base ++ attrs
  | none =>
    if directInfoProviderAPIs.any (fun api_name => api_name ∈ e.apis) then
      base ++
        [{ attribute_type_id := "biolink:supporting_data_source",
           value := .strs e.sources, value_type_id := some "biolink:InformationResource" },
         { attribute_type_id := "biolink:primary_knowledge_source",
           value := .strs e.inforesCuries, value_type_id := some "biolink:InformationResource" },
         { attribute_type_id := "publications",
           value := .strs e.publications, value_type_id := some "biolink:publication" }] ++
        bagAttributes e.attributesBag
    else
      base ++
        [{ attribute_type_id := "biolink:primary_knowledge_source",
           value := .strs e.sources, value_type_id := some "biolink:InformationResource" },
         { attribute_type_id := "biolink:aggregator_knowledge_source",
           value := .strs e.inforesCuries, value_type_id := some "biolink:InformationResource" },
         { attribute_type_id := "publications",
           value := .strs e.publications, value_type_id := some "biolink:publication" }] ++
        bagAttributes e.attributesBag

/-- A knowledge-graph edge as emitted to the TRAPI response. -/
structure KGEdgeOut where
  predicate : String
  subject : String
  object : String
  attributes : List TrapiAttribute
deriving DecidableEq, Repr

/-- KnowledgeGraph._createEdge. -/
def createEdge (e : KGEdgeM) : KGEdgeOut :=
  { predicate := e.predicate, subject := e.subject, object := e.object,
    attributes := createAttributes e }

/-- C9.  Every knowledge-graph edge emitted by the builder — TRAPI-native,
allow-listed direct source, or generic non-TRAPI — begins its attribute list
with the aggregator knowledge source attribute valued
["infores:translator-biothings-explorer"]. -/
theorem c9_aggregator_first_attribute (e : KGEdgeM) :
    (createEdge e).attributes.head? = some aggregatorAttribute ∧
    aggregatorAttribute.attribute_type_id = "biolink:aggregator_knowledge_source" ∧
    aggregatorAttribute.value = .strs ["infores:translator-biothings-explorer"] := by
  refine ⟨?_, rfl, rfl⟩
  show (createAttributes e).head? = some aggregatorAttribute
  rw [createAttributes]
  cases e.trapiAttributes with
  | none =>
    by_cases h : directInfoProviderAPIs.any (fun api_name => api_name ∈ e.apis)
    · simp [h]
    · simp [h]
  | some attrs => simp

/-! ## Cache key of an execution edge (src/src/query_execution_edge.js
getHashedEdgeRepresentation and src/src/cache_handler.js _hashEdgeByKG)

query_node.js and helper.js are not under src/, so the query-node accessors
and the fingerprint helper are modelled from the spec: getCategories returns
the node's category list, getCurie its curie list (empty when the node has
none), and _generateHash is a fingerprint of its input string, modelled as
the identity on that string (the spec only requires the fingerprint to be a
stable function of its input).  JS string concatenation coerces an array to
the comma-joined string of its elements, which joinSep "," realizes. -/

/-- A query node as consumed by the hashed edge representation.  Modelled
from the spec: query_node.js is not under src/. -/
structure QNodeM where
  id : String
  categories : List String
  curie : List String
deriving DecidableEq, Repr

/-- Modelled from the spec: QNode.getCategories (query_node.js missing)
returns the node's category list. -/
def QNodeM.getCategories (n : QNodeM) : List String := n.categories

/-- Modelled from the spec: QNode.getCurie (query_node.js missing) returns
the node's curie list, empty when the node has no curie. -/
def QNodeM.getCurie (n : QNodeM) : List String := n.curie

/-- An execution edge as consumed by the cache key computation: the
underlying QEdge's subject and object nodes, the predicate list, and the
direction flag.  The subject and object of the execution direction swap the
QEdge endpoints when the edge is reversed. -/
structure QXEdgeM where
  qEdgeSubject : QNodeM
  qEdgeObject : QNodeM
  predicate : List String
  reverse : Bool
deriving DecidableEq, Repr

/-- The execution-direction subject. -/
def QXEdgeM.subject (e : QXEdgeM) : QNodeM :=
  if e.reverse then e.qEdgeObject else e.qEdgeSubject

/-- The execution-direction object. -/
def QXEdgeM.object (e : QXEdgeM) : QNodeM :=
  if e.reverse then e.qEdgeSubject else e.qEdgeObject

/-- getInputCurie: the QEdge subject's curie when present, otherwise the
QEdge object's. -/
def QXEdgeM.getInputCurie (e : QXEdgeM) : List String :=
  if e.qEdgeSubject.getCurie.isEmpty then e.qEdgeObject.getCurie
  else e.qEdgeSubject.getCurie

/-- Modelled from the spec: helper._generateHash (helper.js missing) is the
edge fingerprint, a stable function of the hashed string; modelled as the
identity fingerprint. -/
def generateHash (s : String) : String := s

/-- getHashedEdgeRepresentation: the fingerprint of subject categories +
predicate + object categories + input curies, with JS array-to-string
coercion joining each list by commas. -/
def getHashedEdgeRepresentation (e : QXEdgeM) : String :=
  generateHash
    (joinSep "," e.subject.getCategories ++ joinSep "," e.predicate ++
      joinSep "," e.object.getCategories ++ joinSep "," e.getInputCurie)

/-- One MetaKG operation, carrying its owning smartapi id. -/
structure MetaKGOp where
  smartapiID : String
deriving DecidableEq, Repr

/-- The MetaKG as consumed by the cache handler: its operation list. -/
structure MetaKGM where
  ops : List MetaKGOp
deriving DecidableEq, Repr

/-- CacheHandler._hashEdgeByKG: without a MetaKG the edge hash is returned
unchanged; with one, the fingerprint of the edge hash + the stringified
operation count + the concatenation of the de-duplicated smartapi ids. -/
def hashEdgeByKG (metaKG : Option MetaKGM) (qXEdgeHash : String) : String :=
  match metaKG with
  | none => qXEdgeHash
  | some kg =>
    generateHash (qXEdgeHash ++ toString kg.ops.length ++
      String.join (jsDedup (kg.ops.map (fun op => op.smartapiID))))

/-- The composite cache key of one execution edge. -/
def cacheKey (metaKG : Option MetaKGM) (e : QXEdgeM) : String :=
  hashEdgeByKG metaKG (getHashedEdgeRepresentation e)

/-- Two execution edges whose subject category lists are permutations of
each other and that agree on every other key component. -/
def c4EdgeA : QXEdgeM :=
  { qEdgeSubject := ⟨"n0", ["biolink:Gene", "biolink:Protein"], ["NCBIGene:3778"]⟩
    qEdgeObject := ⟨"n1", ["biolink:Disease"], []⟩
    predicate := ["related_to"]
    reverse := false }

def c4EdgeB : QXEdgeM :=
  { qEdgeSubject := ⟨"n0", ["biolink:Protein", "biolink:Gene"], ["NCBIGene:3778"]⟩
    qEdgeObject := ⟨"n1", ["biolink:Disease"], []⟩
    predicate := ["related_to"]
    reverse := false }

def c4MetaKG : MetaKGM := ⟨[⟨"api1"⟩, ⟨"api2"⟩]⟩

/-- C4, counterexample.  Permuting the order of a category list changes the
computed cache key: c4EdgeA and c4EdgeB differ only in the order of the
subject categories, all other key components being equal, yet their cache
keys differ — the hashed representation concatenates the category lists in
their given order without sorted canonicalization. -/
theorem c4_key_counterexample :
    (List.Perm c4EdgeA.subject.getCategories c4EdgeB.subject.getCategories) ∧
    c4EdgeA.object.getCategories = c4EdgeB.object.getCategories ∧
    c4EdgeA.predicate = c4EdgeB.predicate ∧
    c4EdgeA.getInputCurie = c4EdgeB.getInputCurie ∧
    cacheKey (some c4MetaKG) c4EdgeA ≠ cacheKey (some c4MetaKG) c4EdgeB := by
  refine ⟨?_, rfl, rfl, rfl, by decide⟩
  exact List.Perm.swap _ _ _

/-- C4, amended.  The cache key is a function of only the subject category
list, the predicate list, the object category list, the input curie list,
the MetaKG operation count, and the MetaKG operations' smartapi id list —
with the category lists taken in their given order (no sorted
canonicalization), so that permuting a category list changes the key in
general. -/
theorem c4_key_components (e1 e2 : QXEdgeM) (kg1 kg2 : MetaKGM)
    (hsc : e1.subject.getCategories = e2.subject.getCategories)
    (hp : e1.predicate = e2.predicate)
    (hoc : e1.object.getCategories = e2.object.getCategories)
    (hic : e1.getInputCurie = e2.getInputCurie)
    (hlen : kg1.ops.length = kg2.ops.length)
    (hids : kg1.ops.map (fun op => op.smartapiID) = kg2.ops.map (fun op => op.smartapiID)) :
    cacheKey (some kg1) e1 = cacheKey (some kg2) e2 := by
  rw [cacheKey, cacheKey, hashEdgeByKG, hashEdgeByKG, getHashedEdgeRepresentation,
    getHashedEdgeRepresentation, hsc, hp, hoc, hic, hlen, hids]

/-- An edge distinct from c4EdgeA (different node ids, different direction
flag with swapped endpoints) that agrees with it on every key component. -/
def c4EdgeC : QXEdgeM :=
  { qEdgeSubject := ⟨"m1", ["biolink:Disease"], []⟩
    qEdgeObject := ⟨"m0", ["biolink:Gene", "biolink:Protein"], ["NCBIGene:3778"]⟩
    predicate := ["related_to"]
    reverse := true }

theorem c4_key_components_witness :
    cacheKey (some c4MetaKG) c4EdgeA = cacheKey (some c4MetaKG) c4EdgeC :=
  c4_key_components c4EdgeA c4EdgeC c4MetaKG c4MetaKG rfl rfl rfl (by decide) rfl rfl

/-! ## Cache payload pipeline (src/src/cache_handler.js)

The encode pipeline (createEncodeStream and the chunker) serializes each
record, appends the comma delimiter, concatenates, and regroups the stream
into bounded chunks; the decode pipeline (DelimitedChunks) buffers chunks,
splits off the complete comma-terminated tokens, and parses each.  The
external serializer stack — JSON.stringify, LZ4, base64url — is not code of
this repository; it is modelled as a record codec enc/dec over the payload,
required (as base64url guarantees) to produce no comma and to round-trip.
Payload text is modelled as List Char.

A record entering the cache is first copied by _copyRecord with its
trapi_qEdge back-reference cleared; categorizeEdges reinstates the reference
to the edge being looked up.  The back-reference is modelled as an optional
edge identifier. -/

/-- A record as handled by the cache: an opaque serializable payload plus
the trapi_qEdge back-reference. -/
structure CacheRecord (α : Type) where
  payload : α
  qEdgeRef : Option Nat
deriving DecidableEq, Repr

/-- _copyRecord: the stored copy drops the trapi_qEdge back-reference. -/
def copyRecord {α : Type} (r : CacheRecord α) : CacheRecord α :=
  { r with qEdgeRef := none }

/-- The read-side reinstatement of the back-reference
(categorizeEdges, line 114). -/
def restoreQEdge {α : Type} (eid : Nat) (r : CacheRecord α) : CacheRecord α :=
  { r with qEdgeRef := some eid }

/-- createEncodeStream transform: one serialized record followed by the
comma delimiter. -/
def encodeToken {α : Type} (enc : α → List Char) (r : CacheRecord α) : List Char :=
  enc r.payload ++ [',']

/-- The full encoded stream of a record list: each record copied (dropping
the back-reference), serialized, delimited, and concatenated. -/
def encodeStream {α : Type} (enc : α → List Char) (rs : List (CacheRecord α)) : List Char :=
  (rs.map (fun r => encodeToken enc (copyRecord r))).flatten

/-- Fuelled worker for chunkify; the fuel only serves to make the recursion
structural and is always called with at least the stream length. -/
def chunkifyF : Nat → Nat → List Char → List (List Char)
  | 0, _, _ => []
  | _ + 1, _, [] => []
  | _ + 1, 0, s => [s]
  | f + 1, n + 1, s => s.take (n + 1) :: chunkifyF f (n + 1) (s.drop (n + 1))

/-- The chunker stage (stream-chunker with flush): regroup the stream into
chunks of the given size, the remainder flushed as a final short chunk. -/
def chunkify (n : Nat) (s : List Char) : List (List Char) :=
  chunkifyF s.length n s

/-- The cache payload written for a record list: the encoded stream
regrouped into 100000-character chunks (cacheEdges, line 227). -/
def cacheEncode {α : Type} (enc : α → List Char) (rs : List (CacheRecord α)) :
    List (List Char) :=
  chunkify 100000 (encodeStream enc rs)

/-- Splitting a buffer at commas, as buffer.split(',') followed by popping
the trailing element: the first component lists the complete
comma-terminated tokens in order, the second is the remainder after the
last comma. -/
def scanParts : List Char → List (List Char) × List Char
  | [] => ([], [])
  | c :: rest =>
    let pr := scanParts rest
    if c = ',' then ([] :: pr.1, pr.2)
    else
      match pr.1 with
      | [] => ([], c :: pr.2)
      | h :: t => ((c :: h) :: t, pr.2)

/-- Parsing of one token on read: the payload codec, producing the record
with the back-reference cleared (it was cleared before encoding). -/
def decodeToken {α : Type} (dec : List Char → Option α) (t : List Char) :
    Option (CacheRecord α) :=
  (dec t).map (fun p => ⟨p, none⟩)

/-- Sequence a partial parse over a token list, failing when any token
fails. -/
def optTraverse {β γ : Type} (f : β → Option γ) : List β → Option (List γ)
  | [] => some []
  | b :: l =>
    match f b, optTraverse f l with
    | some c, some cs => some (c :: cs)
    | _, _ => none

/-- The DelimitedChunks transform state: records emitted so far and the
buffered remainder (never containing a delimiter). -/
structure DCState (α : Type) where
  emitted : List (CacheRecord α)
  buffer : List Char
deriving DecidableEq, Repr

/-- The delimiter-splitting computation of the transform, applied
unconditionally to the grown buffer: split off the complete tokens, parse
each in order, keep the remainder.  This is exactly what
DelimitedChunks._transform computes in its delimiter branch; the faithful
transform dcStep below agrees with it precisely when the grown buffer
contains a delimiter, and this uniform version is what makes runs over
delimiter-carrying chunks insensitive to chunk boundaries. -/
def dcSplitStep {α : Type} (dec : List Char → Option α) (st : DCState α) (chunk : List Char) :
    Except Unit (DCState α) :=
  let pr := scanParts (st.buffer ++ chunk)
  match optTraverse (decodeToken dec) pr.1 with
  | some recs => .ok ⟨st.emitted ++ recs, pr.2⟩
  | none => .error ()

/-- Run the splitting computation over a chunk list from a given state,
propagating a failure. -/
def dcSplitRun {α : Type} (dec : List Char → Option α) (st : Except Unit (DCState α))
    (chunks : List (List Char)) : Except Unit (DCState α) :=
  chunks.foldl (fun acc c => acc.bind (fun s => dcSplitStep dec s c)) st

/-- The fate of the decode stream as observed by its consumer: a clean end
with the decoded records, a stream error event, or a permanent stall in
which neither end nor error ever fires. -/
inductive DCResult (α : Type) where
  | ok (recs : List (CacheRecord α))
  | errored
  | stalled
deriving DecidableEq, Repr

/-- The condition of the decode stream while chunks arrive. -/
inductive DCRun (α : Type) where
  | running (st : DCState α)
  | errored
  | stalled
deriving DecidableEq, Repr

/-- DelimitedChunks._transform on one chunk.  The buffer grows by the
chunk; only when the grown buffer contains the delimiter does the source
split it, parse each complete token in order, keep the remainder, and
invoke the transform callback.  A token the codec rejects corresponds to
JSON.parse or lz4.decode throwing inside the transform, which surfaces as
a stream error event.  When the grown buffer holds no comma the source
invokes no callback at all: the stream accepts no further chunk and never
ends — the transform stalls permanently. -/
def dcStep {α : Type} (dec : List Char → Option α) (st : DCState α) (chunk : List Char) :
    DCRun α :=
  if ',' ∈ st.buffer ++ chunk then
    match optTraverse (decodeToken dec) (scanParts (st.buffer ++ chunk)).1 with
    | some recs => .running ⟨st.emitted ++ recs, (scanParts (st.buffer ++ chunk)).2⟩
    | none => .errored
  else .stalled

/-- Run the transform over the chunk list: once the stream has errored or
stalled, no further chunk is delivered. -/
def dcRunFrom {α : Type} (dec : List Char → Option α) (acc : DCRun α)
    (chunks : List (List Char)) : DCRun α :=
  chunks.foldl
    (fun acc c =>
      match acc with
      | .running s => dcStep dec s c
      | other => other)
    acc

/-- DelimitedChunks._flush.  An empty trailing buffer invokes the flush
callback once and the stream ends cleanly.  A nonempty one does not end
cleanly: a parse throw lands in the catch as callback(error), and a
successful parse is followed by a second callback invocation
(callback(null, final) and then callback()), which Node surfaces as an
ERR_MULTIPLE_CALLBACK stream error; the model records both as the stream
erroring rather than ending cleanly.  Encoded streams always end with the
delimiter, so no theorem below reaches the nonempty branch. -/
def dcFlush {α : Type} (st : DCState α) : DCResult α :=
  if st.buffer.isEmpty then .ok st.emitted else .errored

/-- The full decode pipeline over the stored chunk sequence. -/
def dcDecode {α : Type} (dec : List Char → Option α) (chunks : List (List Char)) :
    DCResult α :=
  match dcRunFrom dec (.running ⟨[], []⟩) chunks with
  | .running st => dcFlush st
  | .errored => .errored
  | .stalled => .stalled

/-! ### Lemmas: the chunker only regroups the stream -/

theorem join_chunkifyF : ∀ (f n : Nat) (s : List Char), s.length ≤ f →
    (chunkifyF f n s).flatten = s
  | 0, _, s => by
    intro h
    have hs : s = [] := List.eq_nil_of_length_eq_zero (Nat.le_zero.mp h)
    subst hs
    rfl
  | f + 1, n, [] => by intro _; cases n <;> rfl
  | f + 1, 0, c :: cs => by
    intro _
    simp [chunkifyF]
  | f + 1, n + 1, c :: cs => by
    intro h
    simp only [chunkifyF, List.flatten_cons]
    rw [join_chunkifyF f (n + 1) ((c :: cs).drop (n + 1))
      (by simp only [List.length_drop, List.length_cons] at *; omega)]
    exact List.take_append_drop _ _

theorem join_chunkify (n : Nat) (s : List Char) : (chunkify n s).flatten = s :=
  join_chunkifyF s.length n s le_rfl

/-! ### Lemmas: splitting at commas -/

theorem scanParts_comma (rest : List Char) :
    scanParts (',' :: rest) = ([] :: (scanParts rest).1, (scanParts rest).2) := by
  simp [scanParts]

theorem scanParts_cons_ne_nil {c : Char} (rest : List Char) (hc : ¬ c = ',')
    (h1 : (scanParts rest).1 = []) :
    scanParts (c :: rest) = ([], c :: (scanParts rest).2) := by
  simp only [scanParts]
  rw [if_neg hc, h1]

theorem scanParts_cons_ne_cons {c : Char} (rest : List Char) (h : List Char)
    (t : List (List Char)) (hc : ¬ c = ',') (h1 : (scanParts rest).1 = h :: t) :
    scanParts (c :: rest) = ((c :: h) :: t, (scanParts rest).2) := by
  simp only [scanParts]
  rw [if_neg hc, h1]

/-- The remainder kept in the buffer never contains a comma. -/
theorem comma_not_mem_scanParts_snd : ∀ s : List Char, ',' ∉ (scanParts s).2
  | [] => by simp [scanParts]
  | c :: rest => by
    by_cases hc : c = ','
    · subst hc
      rw [scanParts_comma]
      exact comma_not_mem_scanParts_snd rest
    · rcases h1 : (scanParts rest).1 with _ | ⟨h, t⟩
      · rw [scanParts_cons_ne_nil rest hc h1]
        intro hmem
        rcases List.mem_cons.mp hmem with heq | hmem
        · exact hc heq.symm
        · exact comma_not_mem_scanParts_snd rest hmem
      · rw [scanParts_cons_ne_cons rest h t hc h1]
        exact comma_not_mem_scanParts_snd rest

/-- A comma-free buffer splits into no complete token and itself. -/
theorem scanParts_comma_free : ∀ s : List Char, ',' ∉ s → scanParts s = ([], s)
  | [] => fun _ => rfl
  | c :: rest => by
    intro hmem
    have hc : ¬ c = ',' := fun h => hmem (h ▸ List.mem_cons_self _ _)
    have hrest : ',' ∉ rest := fun h => hmem (List.mem_cons_of_mem _ h)
    have h1 := scanParts_comma_free rest hrest
    rw [scanParts_cons_ne_nil rest hc (by rw [h1]), h1]

theorem scanParts_append_nil : ∀ (x y : List Char), (scanParts y).1 = [] →
    scanParts (x ++ y) = ((scanParts x).1, (scanParts x).2 ++ (scanParts y).2)
  | [], y => by
    intro hy
    simp only [List.nil_append]
    rw [show scanParts [] = (([] : List (List Char)), ([] : List Char)) from rfl]
    simp only [List.nil_append]
    rw [show scanParts y = ((scanParts y).1, (scanParts y).2) from rfl, hy]
  | c :: x, y => by
    intro hy
    have ih := scanParts_append_nil x y hy
    simp only [List.cons_append]
    by_cases hc : c = ','
    · subst hc
      rw [scanParts_comma, scanParts_comma, ih]
    · rcases h1 : (scanParts x).1 with _ | ⟨h, t⟩
      · rw [scanParts_cons_ne_nil (x ++ y) hc (by rw [ih, h1]),
          scanParts_cons_ne_nil x hc h1, ih]
        simp
      · rw [scanParts_cons_ne_cons (x ++ y) h t hc (by rw [ih, h1]),
          scanParts_cons_ne_cons x h t hc h1, ih]

theorem scanParts_append_cons : ∀ (x y : List Char) (h : List Char) (t : List (List Char)),
    (scanParts y).1 = h :: t →
    scanParts (x ++ y) =
      ((scanParts x).1 ++ ((scanParts x).2 ++ h) :: t, (scanParts y).2)
  | [], y, h, t => by
    intro hy
    simp only [List.nil_append]
    rw [show scanParts [] = (([] : List (List Char)), ([] : List Char)) from rfl]
    simp only [List.nil_append]
    rw [show scanParts y = ((scanParts y).1, (scanParts y).2) from rfl, hy]
  | c :: x, y, h, t => by
    intro hy
    have ih := scanParts_append_cons x y h t hy
    simp only [List.cons_append]
    by_cases hc : c = ','
    · subst hc
      rw [scanParts_comma, scanParts_comma, ih]
      simp
    · rcases h1 : (scanParts x).1 with _ | ⟨h', t'⟩
      · rw [scanParts_cons_ne_cons (x ++ y) ((scanParts x).2 ++ h) t hc
            (by rw [ih, h1]; simp),
          scanParts_cons_ne_nil x hc h1, ih, h1]
        simp
      · rw [scanParts_cons_ne_cons (x ++ y) h' (t' ++ ((scanParts x).2 ++ h) :: t) hc
            (by rw [ih, h1]; simp),
          scanParts_cons_ne_cons x h' t' hc h1, ih, h1]
        simp

/-- Splitting a stream of comma-terminated comma-free tokens recovers
exactly the tokens, with an empty remainder. -/
theorem scanParts_tokens : ∀ ts : List (List Char), (∀ t ∈ ts, ',' ∉ t) →
    scanParts ((ts.map (fun t => t ++ [','])).flatten) = (ts, [])
  | [] => fun _ => rfl
  | t :: ts => by
    intro hfree
    have ht : ',' ∉ t := hfree t (List.mem_cons_self _ _)
    have hts := scanParts_tokens ts (fun u hu => hfree u (List.mem_cons_of_mem _ hu))
    simp only [List.map_cons, List.flatten_cons, List.append_assoc, List.singleton_append]
    rw [scanParts_append_cons t (',' :: (ts.map (fun t => t ++ [','])).flatten) []
      (scanParts ((ts.map (fun t => t ++ [','])).flatten)).1 ?hsplit]
    case hsplit => rw [scanParts_comma]
    rw [scanParts_comma, hts, scanParts_comma_free t ht]
    simp

theorem optTraverse_append {β γ : Type} (f : β → Option γ) : ∀ l1 l2 : List β,
    optTraverse f (l1 ++ l2) =
      match optTraverse f l1, optTraverse f l2 with
      | some a, some b => some (a ++ b)
      | _, _ => none
  | [], l2 => by
    cases h : optTraverse f l2 <;> simp [optTraverse, h]
  | b :: l1, l2 => by
    rw [List.cons_append, optTraverse, optTraverse, optTraverse_append f l1 l2]
    cases hb : f b <;> cases h1 : optTraverse f l1 <;> cases h2 : optTraverse f l2 <;> simp

/-! ### Lemmas: the splitting computation is insensitive to chunk boundaries -/

theorem dcSplitStep_append {α : Type} (dec : List Char → Option α) (st : DCState α)
    (c1 c2 : List Char) :
    (dcSplitStep dec st c1).bind (fun s => dcSplitStep dec s c2) = dcSplitStep dec st (c1 ++ c2) := by
  rcases hp1 : scanParts (st.buffer ++ c1) with ⟨parts1, trail1⟩
  have htrail : ',' ∉ trail1 := by
    have := comma_not_mem_scanParts_snd (st.buffer ++ c1)
    rw [hp1] at this
    exact this
  have htrailSplit : scanParts trail1 = ([], trail1) := scanParts_comma_free trail1 htrail
  rcases hp2 : scanParts c2 with ⟨parts2, trail2⟩
  cases parts2 with
  | nil =>
    have hfull : scanParts (st.buffer ++ (c1 ++ c2)) = (parts1, trail1 ++ trail2) := by
      rw [← List.append_assoc]
      rw [scanParts_append_nil (st.buffer ++ c1) c2 (by rw [hp2]), hp1, hp2]
    have hsecond : scanParts (trail1 ++ c2) = ([], trail1 ++ trail2) := by
      rw [scanParts_append_nil trail1 c2 (by rw [hp2]), htrailSplit, hp2]
    rw [dcSplitStep, dcSplitStep, hp1, hfull]
    cases h1 : optTraverse (decodeToken dec) parts1 with
    | none => rfl
    | some recs =>
      simp only [Except.bind]
      rw [dcSplitStep, hsecond]
      simp [optTraverse]
  | cons h2 t2 =>
    have hfull : scanParts (st.buffer ++ (c1 ++ c2)) =
        (parts1 ++ (trail1 ++ h2) :: t2, trail2) := by
      rw [← List.append_assoc]
      rw [scanParts_append_cons (st.buffer ++ c1) c2 h2 t2 (by rw [hp2]), hp1, hp2]
    have hsecond : scanParts (trail1 ++ c2) = ((trail1 ++ h2) :: t2, trail2) := by
      rw [scanParts_append_cons trail1 c2 h2 t2 (by rw [hp2]), htrailSplit, hp2]
      simp
    rw [dcSplitStep, dcSplitStep, hp1, hfull]
    rw [optTraverse_append (decodeToken dec) parts1 ((trail1 ++ h2) :: t2)]
    cases h1 : optTraverse (decodeToken dec) parts1 with
    | none => rfl
    | some recs =>
      simp only [Except.bind]
      rw [dcSplitStep, hsecond]
      cases hrest : optTraverse (decodeToken dec) ((trail1 ++ h2) :: t2) with
      | none => rfl
      | some recs2 => simp

theorem dcSplitRun_error {α : Type} (dec : List Char → Option α) (e : Unit) :
    ∀ chunks : List (List Char), dcSplitRun dec (.error e) chunks = .error e
  | [] => rfl
  | c :: cs => by
    rw [dcSplitRun, List.foldl_cons]
    exact dcSplitRun_error dec e cs

/-- Running the splitting computation over a chunk sequence behaves as one
split of the concatenated stream: chunk boundaries are invisible to it. -/
theorem dcSplitRun_join {α : Type} (dec : List Char → Option α) :
    ∀ (chunks : List (List Char)) (st : DCState α),
      scanParts st.buffer = ([], st.buffer) →
      dcSplitRun dec (.ok st) chunks = dcSplitStep dec st chunks.flatten
  | [], st => by
    intro hbuf
    show Except.ok st = dcSplitStep dec st []
    rw [dcSplitStep]
    rw [List.append_nil, hbuf]
    simp [optTraverse]
  | c :: cs, st => by
    intro hbuf
    rw [List.flatten_cons, ← dcSplitStep_append]
    have hstep : dcSplitRun dec (.ok st) (c :: cs) = dcSplitRun dec (dcSplitStep dec st c) cs := by
      rw [dcSplitRun, List.foldl_cons]
      rfl
    rw [hstep]
    cases h1 : dcSplitStep dec st c with
    | error e => rw [dcSplitRun_error]; rfl
    | ok s1 =>
      have hs1 : scanParts s1.buffer = ([], s1.buffer) := by
        have hb : s1.buffer = (scanParts (st.buffer ++ c)).2 := by
          rw [dcSplitStep] at h1
          rcases hp : optTraverse (decodeToken dec) (scanParts (st.buffer ++ c)).1 with _ | recs <;>
            rw [hp] at h1
          · cases h1
          · cases h1
            rfl
        rw [hb]
        exact scanParts_comma_free _ (comma_not_mem_scanParts_snd _)
      rw [dcSplitRun_join dec cs s1 hs1]
      simp [Except.bind]

/-- Parsing the encoded tokens of a record list succeeds and yields the
stored copies. -/
theorem optTraverse_encoded {α : Type} (enc : α → List Char) (dec : List Char → Option α)
    (hrt : ∀ a, dec (enc a) = some a) :
    ∀ rs : List (CacheRecord α),
      optTraverse (decodeToken dec) (rs.map (fun r => enc r.payload)) =
        some (rs.map copyRecord)
  | [] => rfl
  | r :: rs => by
    rw [List.map_cons, optTraverse, optTraverse_encoded enc dec hrt rs]
    rw [decodeToken, hrt r.payload]
    rfl

theorem restore_copy_map {α : Type} (eid : Nat) :
    ∀ L : List (CacheRecord α), (∀ r ∈ L, r.qEdgeRef = some eid) →
      L.map (restoreQEdge eid ∘ copyRecord) = L
  | [] => fun _ => rfl
  | r :: rs => by
    intro hq
    rw [List.map_cons, restore_copy_map eid rs (fun u hu => hq u (List.mem_cons_of_mem _ hu))]
    have hr := hq r (List.mem_cons_self _ _)
    cases r with
    | mk p q =>
      simp only [Function.comp, copyRecord, restoreQEdge] at *
      rw [← hr]

/-! ### Bridging the faithful transform to the splitting computation

Whenever every arriving chunk carries a delimiter, the faithful transform
never takes its stalling branch and computes exactly the splitting
computation. -/

theorem dcRunFrom_errored {α : Type} (dec : List Char → Option α) :
    ∀ chunks : List (List Char), dcRunFrom dec .errored chunks = .errored
  | [] => rfl
  | c :: cs => by
    rw [dcRunFrom, List.foldl_cons]
    exact dcRunFrom_errored dec cs

theorem dcRunFrom_stalled {α : Type} (dec : List Char → Option α) :
    ∀ chunks : List (List Char), dcRunFrom dec .stalled chunks = .stalled
  | [] => rfl
  | c :: cs => by
    rw [dcRunFrom, List.foldl_cons]
    exact dcRunFrom_stalled dec cs

theorem dcStep_eq_of_comma {α : Type} (dec : List Char → Option α) (st : DCState α)
    (chunk : List Char) (h : ',' ∈ st.buffer ++ chunk) :
    dcStep dec st chunk =
      match dcSplitStep dec st chunk with
      | .ok s => .running s
      | .error _ => .errored := by
  simp only [dcStep, dcSplitStep]
  rw [if_pos h]
  cases optTraverse (decodeToken dec) (scanParts (st.buffer ++ chunk)).1 with
  | none => rfl
  | some recs => rfl

theorem dcRunFrom_eq_of_comma {α : Type} (dec : List Char → Option α) :
    ∀ (chunks : List (List Char)) (st : DCState α), (∀ c ∈ chunks, ',' ∈ c) →
      dcRunFrom dec (.running st) chunks =
        match dcSplitRun dec (.ok st) chunks with
        | .ok s => .running s
        | .error _ => .errored
  | [], st => fun _ => rfl
  | c :: cs, st => by
    intro hc
    have hcomma : ',' ∈ st.buffer ++ c :=
      List.mem_append.mpr (Or.inr (hc c (List.mem_cons_self _ _)))
    have hstep1 : dcRunFrom dec (.running st) (c :: cs) =
        dcRunFrom dec (dcStep dec st c) cs := by
      rw [dcRunFrom, List.foldl_cons]
      rfl
    have hstep2 : dcSplitRun dec (.ok st) (c :: cs) =
        dcSplitRun dec (dcSplitStep dec st c) cs := by
      rw [dcSplitRun, List.foldl_cons]
      rfl
    rw [hstep1, hstep2, dcStep_eq_of_comma dec st c hcomma]
    cases h2 : dcSplitStep dec st c with
    | ok s1 =>
      exact dcRunFrom_eq_of_comma dec cs s1 (fun u hu => hc u (List.mem_cons_of_mem _ hu))
    | error e =>
      rw [dcRunFrom_errored, dcSplitRun_error]

/-! ### Delimiter coverage of the stored chunks

A stream of comma-terminated tokens, each comma-free and shorter than the
chunk size, carries a delimiter inside every window the chunker cuts, so
the faithful transform never stalls on it. -/

/-- A delimited stream: a concatenation of comma-terminated tokens, each
comma-free and shorter than n. -/
inductive ShortTokenStream (n : Nat) : List Char → Prop where
  | nil : ShortTokenStream n []
  | tok (t r : List Char) : ',' ∉ t → t.length < n →
      ShortTokenStream n r → ShortTokenStream n (t ++ ',' :: r)

theorem shortTokenStream_drop_one {n : Nat} {s : List Char}
    (h : ShortTokenStream n s) : ShortTokenStream n (s.drop 1) := by
  cases h with
  | nil => exact ShortTokenStream.nil
  | tok t r ht hl hr =>
    cases t with
    | nil => simpa using hr
    | cons c t0 =>
      rw [List.cons_append, List.drop_succ_cons, List.drop_zero]
      refine ShortTokenStream.tok t0 r (fun hm => ht (List.mem_cons_of_mem _ hm)) ?_ hr
      rw [List.length_cons] at hl
      omega

theorem shortTokenStream_drop (n : Nat) :
    ∀ (k : Nat) (s : List Char), ShortTokenStream n s → ShortTokenStream n (s.drop k)
  | 0, s, h => by simpa using h
  | k + 1, s, h => by
    have h2 := shortTokenStream_drop n k (s.drop 1) (shortTokenStream_drop_one h)
    rw [List.drop_drop] at h2
    rwa [Nat.add_comm 1 k] at h2

theorem comma_mem_take (n : Nat) {s : List Char} (h : ShortTokenStream n s)
    (hne : s ≠ []) : ',' ∈ s.take n := by
  cases h with
  | nil => exact absurd rfl hne
  | tok t r ht hl hr =>
    rw [List.take_append_eq_append_take]
    refine List.mem_append.mpr (Or.inr ?_)
    obtain ⟨m, hm⟩ : ∃ m, n - t.length = m + 1 := ⟨n - t.length - 1, by omega⟩
    rw [hm, List.take_succ_cons]
    exact List.mem_cons_self _ _

theorem chunkifyF_comma (m : Nat) :
    ∀ (fuel : Nat) (s : List Char), ShortTokenStream (m + 1) s →
      ∀ c ∈ chunkifyF fuel (m + 1) s, ',' ∈ c
  | 0, s => by
    intro _ c hc
    simp [chunkifyF] at hc
  | fuel + 1, [] => by
    intro _ c hc
    simp [chunkifyF] at hc
  | fuel + 1, c0 :: cs => by
    intro hsts c hc
    rw [chunkifyF] at hc
    · rcases List.mem_cons.mp hc with rfl | hc
      · exact comma_mem_take (m + 1) hsts (List.cons_ne_nil c0 cs)
      · exact chunkifyF_comma m fuel ((c0 :: cs).drop (m + 1))
          (shortTokenStream_drop (m + 1) (m + 1) _ hsts) c hc
    · exact fun hx => List.noConfusion hx

theorem shortTokenStream_encodeStream {α : Type} (enc : α → List Char) (n : Nat) :
    ∀ L : List (CacheRecord α), (∀ r ∈ L, ',' ∉ enc r.payload) →
      (∀ r ∈ L, (enc r.payload).length < n) →
      ShortTokenStream n (encodeStream enc L)
  | [] => fun _ _ => ShortTokenStream.nil
  | r :: rs => by
    intro hnc hlen
    have hrest := shortTokenStream_encodeStream enc n rs
      (fun u hu => hnc u (List.mem_cons_of_mem _ hu))
      (fun u hu => hlen u (List.mem_cons_of_mem _ hu))
    have heq : encodeStream enc (r :: rs) =
        enc r.payload ++ ',' :: encodeStream enc rs := by
      rw [encodeStream, List.map_cons, List.flatten_cons]
      show (enc r.payload ++ [',']) ++ encodeStream enc rs = _
      rw [List.append_assoc, List.singleton_append]
    rw [heq]
    exact ShortTokenStream.tok _ _ (hnc r (List.mem_cons_self _ _))
      (hlen r (List.mem_cons_self _ _)) hrest

/-- C3, amended.  Cache round-trip: for a record list whose serialized
payloads are each shorter than the 100000-character chunk size — so every
stored chunk carries a delimiter — decoding the stored chunk sequence
recovers the list of stored copies (the records with the trapi_qEdge
back-reference dropped), and reinstating the back-reference of the edge
under which the records were cached recovers the original list.  The
codec hypotheses state what the external serializer stack guarantees: it
round-trips and (as base64url output) never produces the comma
delimiter. -/
theorem c3_cache_roundtrip {α : Type} (enc : α → List Char) (dec : List Char → Option α)
    (hrt : ∀ a, dec (enc a) = some a) (hnc : ∀ a, ',' ∉ enc a)
    (L : List (CacheRecord α)) (eid : Nat) (hq : ∀ r ∈ L, r.qEdgeRef = some eid)
    (hlen : ∀ r ∈ L, (enc r.payload).length < 100000) :
    dcDecode dec (cacheEncode enc L) = DCResult.ok (L.map copyRecord) ∧
    (L.map copyRecord).map (restoreQEdge eid) = L := by
  have hstream : encodeStream enc L =
      ((L.map (fun r => enc r.payload)).map (fun t => t ++ [','])).flatten := by
    rw [encodeStream, List.map_map]
    rfl
  have hfree : ∀ t ∈ L.map (fun r => enc r.payload), ',' ∉ t := by
    intro t ht
    obtain ⟨r, _, rfl⟩ := List.mem_map.mp ht
    exact hnc r.payload
  have hsts : ShortTokenStream 100000 (encodeStream enc L) :=
    shortTokenStream_encodeStream enc 100000 L (fun r _ => hnc r.payload) hlen
  have hchunks : ∀ c ∈ cacheEncode enc L, ',' ∈ c := by
    intro c hc
    have h100 : (100000 : Nat) = 99999 + 1 := by norm_num
    rw [cacheEncode, chunkify, h100] at hc
    refine chunkifyF_comma 99999 (encodeStream enc L).length (encodeStream enc L) ?_ c hc
    rw [← h100]
    exact hsts
  have hsplit : dcSplitRun dec (.ok ⟨[], []⟩) (cacheEncode enc L) =
      Except.ok (⟨L.map copyRecord, []⟩ : DCState α) := by
    rw [cacheEncode,
      dcSplitRun_join dec (chunkify 100000 (encodeStream enc L)) ⟨[], []⟩ rfl,
      join_chunkify, dcSplitStep]
    show (match optTraverse (decodeToken dec) (scanParts (encodeStream enc L)).1 with
      | some recs => Except.ok (⟨[] ++ recs, (scanParts (encodeStream enc L)).2⟩ : DCState α)
      | none => Except.error ()) = _
    rw [hstream, scanParts_tokens (L.map (fun r => enc r.payload)) hfree,
      optTraverse_encoded enc dec hrt L]
    simp
  have hrun : dcRunFrom dec (.running ⟨[], []⟩) (cacheEncode enc L) =
      DCRun.running ⟨L.map copyRecord, []⟩ := by
    rw [dcRunFrom_eq_of_comma dec (cacheEncode enc L) ⟨[], []⟩ hchunks, hsplit]
  refine ⟨?_, ?_⟩
  · rw [dcDecode, hrun]
    rfl
  · rw [List.map_map, restore_copy_map eid L hq]

/-- A concrete two-symbol payload codec standing in for the JSON/LZ4/
base64url stack: injective and comma-free. -/
def boolEnc : Bool → List Char := fun b => if b then ['t'] else ['f']

def boolDec : List Char → Option Bool
  | ['t'] => some true
  | ['f'] => some false
  | _ => none

def c3Records : List (CacheRecord Bool) :=
  [⟨true, some 3⟩, ⟨false, some 3⟩, ⟨true, some 3⟩]

theorem c3_cache_roundtrip_witness :
    dcDecode boolDec (cacheEncode boolEnc c3Records) = DCResult.ok (c3Records.map copyRecord) ∧
    (c3Records.map copyRecord).map (restoreQEdge 3) = c3Records :=
  c3_cache_roundtrip boolEnc boolDec (by decide) (by decide) c3Records 3 (by decide) (by decide)

/-- A unary payload codec with tokens of any length, standing in for the
serializer stack on large records: the payload n serializes to n + 1
repetitions of one letter — injective, comma-free, and able to reach the
chunk size. -/
def natEnc (n : Nat) : List Char := List.replicate (n + 1) 'a'

def natDec (s : List Char) : Option Nat :=
  if s ≠ [] ∧ s.all (fun c => c = 'a') = true then some (s.length - 1) else none

theorem natDec_natEnc (n : Nat) : natDec (natEnc n) = some n := by
  have hcond : natEnc n ≠ [] ∧ (natEnc n).all (fun c => c = 'a') = true := by
    constructor
    · rw [natEnc]
      simp
    · rw [natEnc, List.all_eq_true]
      intro c hc
      simp [List.eq_of_mem_replicate hc]
  rw [natDec, if_pos hcond, natEnc]
  simp

theorem natEnc_comma_free (n : Nat) : ',' ∉ natEnc n := by
  rw [natEnc]
  intro h
  exact absurd (List.eq_of_mem_replicate h) (by decide)

theorem chunkifyF_nil (fuel n : Nat) : chunkifyF fuel n [] = [] := by
  cases fuel with
  | zero => rfl
  | succ f =>
    cases n with
    | zero => rfl
    | succ m => rfl

theorem chunkifyF_small (m fuel : Nat) (s : List Char) (hne : s ≠ [])
    (hlen : s.length ≤ m + 1) (hfuel : 1 ≤ fuel) : chunkifyF fuel (m + 1) s = [s] := by
  cases fuel with
  | zero => omega
  | succ f =>
    cases s with
    | nil => exact absurd rfl hne
    | cons c t =>
      rw [chunkifyF, List.take_of_length_le hlen, List.drop_eq_nil_of_le hlen, chunkifyF_nil]
      exact fun hx => List.noConfusion hx

/-- When the stream is longer than one chunk but at most two, the chunker
cuts exactly a full window and the flushed remainder. -/
theorem chunkify_two (n : Nat) (s : List Char) (hn : 0 < n) (h1 : n < s.length)
    (h2 : s.length ≤ n + n) :
    chunkify n s = [s.take n, s.drop n] := by
  obtain ⟨m, rfl⟩ : ∃ m, n = m + 1 := ⟨n - 1, by omega⟩
  cases s with
  | nil => simp at h1
  | cons c t =>
    rw [chunkify, List.length_cons, chunkifyF]
    · refine congrArg (List.cons _) ?_
      refine chunkifyF_small m t.length ((c :: t).drop (m + 1)) ?_ ?_ ?_
      · intro hx
        have h0 := congrArg List.length hx
        rw [List.length_drop] at h0
        simp only [List.length_nil] at h0
        omega
      · rw [List.length_drop]
        omega
      · rw [List.length_cons] at h1
        omega
    · exact fun hx => List.noConfusion hx

/-- One record whose serialized payload exactly fills a 100000-character
chunk: the first stored chunk then carries no delimiter. -/
def c3BigRecords : List (CacheRecord Nat) := [⟨99999, some 1⟩]

theorem c3BigRecords_chunks :
    cacheEncode natEnc c3BigRecords = [List.replicate 100000 'a', [',']] := by
  have hstream : encodeStream natEnc c3BigRecords = List.replicate 100000 'a' ++ [','] := by
    rw [encodeStream]
    show (natEnc 99999 ++ [',']) ++ [] = _
    rw [natEnc, List.append_nil]
  have hlen1 : (List.replicate 100000 'a' ++ [',']).length = 100001 := by
    rw [List.length_append, List.length_replicate, List.length_singleton]
  have htake : (List.replicate 100000 'a' ++ [',']).take 100000 = List.replicate 100000 'a' :=
    List.take_left' (List.length_replicate 100000 'a')
  have hdrop : (List.replicate 100000 'a' ++ [',']).drop 100000 = [','] :=
    List.drop_left' (List.length_replicate 100000 'a')
  have htwo := chunkify_two 100000 (List.replicate 100000 'a' ++ [','])
    (by norm_num) (by rw [hlen1]; norm_num) (by rw [hlen1]; norm_num)
  rw [cacheEncode, hstream, htwo, htake, hdrop]

/-- C3, counterexample.  Under a codec meeting the same round-trip and
comma-freeness guarantees as the amended theorem, the single record of
c3BigRecords — whose serialized payload fills a whole 100000-character
chunk — makes the first stored chunk delimiter-free: the transform never
invokes its callback on it, the decode stream stalls, and decoding never
yields the record list, refuting the unconditional round-trip. -/
theorem c3_roundtrip_counterexample :
    (∀ n, natDec (natEnc n) = some n) ∧
    (∀ n, ',' ∉ natEnc n) ∧
    dcDecode natDec (cacheEncode natEnc c3BigRecords) = DCResult.stalled ∧
    dcDecode natDec (cacheEncode natEnc c3BigRecords) ≠
      DCResult.ok (c3BigRecords.map copyRecord) := by
  have hnomem : ¬ (',' ∈ (⟨[], []⟩ : DCState Nat).buffer ++ List.replicate 100000 'a') := by
    rw [show (⟨[], []⟩ : DCState Nat).buffer = [] from rfl, List.nil_append]
    intro hmem
    exact absurd (List.eq_of_mem_replicate hmem) (by decide)
  have h1 : dcStep natDec (⟨[], []⟩ : DCState Nat) (List.replicate 100000 'a') =
      DCRun.stalled := by
    rw [dcStep, if_neg hnomem]
  have h2 : dcRunFrom natDec (.running ⟨[], []⟩) [List.replicate 100000 'a', [',']] =
      DCRun.stalled := by
    have hstep : dcRunFrom natDec (.running ⟨[], []⟩) [List.replicate 100000 'a', [',']] =
        dcRunFrom natDec (dcStep natDec ⟨[], []⟩ (List.replicate 100000 'a')) [[',']] := by
      rw [dcRunFrom, List.foldl_cons]
      rfl
    rw [hstep, h1]
    rfl
  have hstall : dcDecode natDec (cacheEncode natEnc c3BigRecords) = DCResult.stalled := by
    rw [dcDecode, c3BigRecords_chunks, h2]
  refine ⟨natDec_natEnc, natEnc_comma_free, hstall, ?_⟩
  rw [hstall]
  intro hcontra
  exact DCResult.noConfusion hcontra

/-! ## Cache lookup locking and decode failure (src/src/cache_handler.js
categorizeEdges, lines 60-123)

The per-edge lookup acquires the distributed lock, reads the stored chunks,
and resolves the surrounding promise either with null (no entry, or the
awaited redis call throwing into the catch) or — via the decode stream's
end event — with the decoded records.  The try/finally around the
synchronous setup always runs unlock, before the stream finishes.  However,
the pipe from the record stream through the decode stream registers only
data and end listeners: when a stored token cannot be decoded, the
transform throws, the stream emits an error event with no listener
attached, and resolve is never invoked — the lookup neither resolves null
nor returns the edge among the non-cached edges.  The outcome type makes
this visible: resolved carries what resolve received, hung is a promise
that never settles. -/

/-- Lock protocol events emitted by a lookup. -/
inductive LockEvent where
  | lock (key : String)
  | unlock (key : String)
deriving DecidableEq, Repr

/-- The fate of one per-edge cache lookup promise. -/
inductive LookupOutcome (α : Type) where
  | resolved (recs : Option (List (CacheRecord α)))
  | hung
deriving DecidableEq, Repr

/-- The redis hash content per key: the stored chunks in ascending field
order (the source sorts the hash fields numerically on read). -/
def redisLookup (redis : List (String × List (List Char))) (k : String) :
    Option (List (List Char)) :=
  (redis.find? (fun p => p.1 = k)).map Prod.snd

/-- The fate of the per-edge lookup promise: resolve(null) when the key is
absent (or the awaited redis read throws into the catch), resolution with
the decoded records on the stream's end event, and a never-settling promise
when decoding fails — whether the stream errors on a corrupt token (the
error event has no listener) or the transform stalls on a delimiter-free
chunk (neither end nor error ever fires). -/
def lookupEdgeCacheOutcome {α : Type} (dec : List Char → Option α)
    (redis : List (String × List (List Char))) (kgHash : String) : LookupOutcome α :=
  match redisLookup redis ("bte:edgeCache:" ++ kgHash) with
  | none => .resolved none
  | some chunks =>
    match dcDecode dec chunks with
    | .ok recs => .resolved (some recs)
    | .errored => .hung
    | .stalled => .hung

/-- One per-edge lookup of categorizeEdges: lock, read, decode, unlock.
The lock events do not depend on the outcome: the finally clause runs
unlock as soon as the synchronous setup of the decode stream completes, on
every path. -/
def lookupEdgeCache {α : Type} (dec : List Char → Option α)
    (redis : List (String × List (List Char))) (kgHash : String) :
    LookupOutcome α × List LockEvent :=
  (lookupEdgeCacheOutcome dec redis kgHash,
   [LockEvent.lock ("redisLock:" ++ kgHash), LockEvent.unlock ("redisLock:" ++ kgHash)])

/-- categorizeEdges over the edge list (edges given as cache hash and edge
identifier): a resolved null sends the edge to nonCachedQXEdges, resolved
records join cachedRecords with the back-reference reinstated, and a hung
lookup never lets the loop finish (the awaited promise never settles), so
the categorization produces no outcome at all from that point on. -/
def categorizeEdgesM {α : Type} (dec : List Char → Option α)
    (redis : List (String × List (List Char))) (edges : List (String × Nat)) :
    Option (List (CacheRecord α) × List Nat) × List LockEvent :=
  edges.foldl
    (fun acc e =>
      match acc.1 with
      | none => acc
      | some (cachedRecords, nonCachedQXEdges) =>
        let res := lookupEdgeCache dec redis e.1
        match res.1 with
        | .resolved none => (some (cachedRecords, nonCachedQXEdges ++ [e.2]), acc.2 ++ res.2)
        | .resolved (some recs) =>
            (some (cachedRecords ++ recs.map (restoreQEdge e.2), nonCachedQXEdges),
             acc.2 ++ res.2)
        | .hung => (none, acc.2 ++ res.2))
    (some ([], []), [])

/-- A stored chunk whose token the codec rejects (a corrupt cache entry). -/
def c6BadChunk : List Char := ['z', ',']

def c6Redis : List (String × List (List Char)) := [("bte:edgeCache:k1", [c6BadChunk])]

/-- C6, failing-input evaluation.  The lock is acquired and released on
every lookup path (first conjunct, for every store and key).  On the
corrupt entry c6Redis, however, the lookup hangs instead of resolving as a
cache miss: the outcome is hung, not resolved none — unlike the genuinely
missing key, which resolves null and sends the edge to the non-cached list
— and the categorization of the edge list never completes. -/
theorem c6_lock_released_decode_hangs :
    (∀ (redis : List (String × List (List Char))) (k : String),
      (lookupEdgeCache boolDec redis k).2 =
        [LockEvent.lock ("redisLock:" ++ k), LockEvent.unlock ("redisLock:" ++ k)]) ∧
    (lookupEdgeCache boolDec c6Redis "k1").1 = LookupOutcome.hung ∧
    (lookupEdgeCache boolDec ([] : List (String × List (List Char))) "k1").1 =
      LookupOutcome.resolved none ∧
    (categorizeEdgesM boolDec ([] : List (String × List (List Char))) [("k1", 7)]).1 =
      some ([], [7]) ∧
    (categorizeEdgesM boolDec c6Redis [("k1", 7)]).1 = none := by
  exact ⟨fun _ _ => rfl, by decide, by decide, by decide, by decide⟩

/-! ## Main query loop (src/src/index.js TRAPIQueryHandler.query, lines
246-357)

The loop repeatedly selects the next unexecuted edge, fetches its records
through the batch handler, stores and filters them, and marks the edge
executed; it returns early — with a warning log and without touching the
results assembler — when the fetch returns zero records or when zero
records survive filtering and propagation.  edge_manager.js is not under
src/; its operations are modelled from the spec (§4.2): getNext picks the
unexecuted edge with the lowest product of endpoint entity counts (the
first such edge on ties), and the store/propagation pass replaces stored
record lists without touching executed flags.  The batch handler, the
propagation filter, and the final assembly are external to the loop and are
taken as parameters. -/

/-- An execution edge as seen by the loop: identifier, endpoint entity
counts, executed flag, stored records (record identifiers suffice for the
loop's control flow). -/
structure MEdge where
  id : String
  subjectEntityCount : Nat
  objectEntityCount : Nat
  executed : Bool
  records : List String
deriving DecidableEq, Repr

inductive LogLevel where
  | info
  | warning
  | debug
deriving DecidableEq, Repr

structure LogEntryM where
  level : LogLevel
  message : String
deriving DecidableEq, Repr

/-- The handler state the loop manipulates: the managed edges, the log
list, and the results assembler state (empty until the assembler runs,
which only happens after the loop completes). -/
structure HandlerState where
  edges : List MEdge
  logs : List LogEntryM
  results : List AssembledResult
deriving DecidableEq, Repr

/-- Modelled from the spec: EdgeManager.getNext (edge_manager.js missing)
chooses the unexecuted edge with the lowest product of endpoint
entity_count values; the first such edge stands in for the further
tie-breaks. -/
def getNextEdge (edges : List MEdge) : Option MEdge :=
  (edges.filter (fun e => !e.executed)).foldl
    (fun best e =>
      match best with
      | none => some e
      | some b =>
        if e.subjectEntityCount * e.objectEntityCount <
            b.subjectEntityCount * b.objectEntityCount then some e
        else best)
    none

/-- currentQXEdge.storeRecords: attach the fetched records to the current
edge. -/
def setEdgeRecords (edges : List MEdge) (eid : String) (recs : List String) : List MEdge :=
  edges.map (fun e => if e.id = eid then { e with records := recs } else e)

/-- Apply the record-list replacements computed by the propagation pass
(updateEdgeRecords and updateAllOtherEdges): per-edge new record lists,
executed flags untouched.  Modelled from the spec (§4.2, §4.3): the pass
only filters stored records. -/
def applyRecordUpdates (edges : List MEdge) (upd : List (String × List String)) :
    List MEdge :=
  edges.map (fun e =>
    match (upd.find? (fun p => p.1 = e.id)).map Prod.snd with
    | some recs => { e with records := recs }
    | none => e)

/-- The stored records of an edge. -/
def recordsOf (edges : List MEdge) (eid : String) : List String :=
  ((edges.find? (fun e => e.id = eid)).map (fun e => e.records)).getD []

/-- currentQXEdge.executed = true. -/
def markExecuted (edges : List MEdge) (eid : String) : List MEdge :=
  edges.map (fun e => if e.id = eid then { e with executed := true } else e)

/-- The edge state after storing the fetched records and running the
propagation filter for the current edge. -/
def storeAndFilter (propagate : List MEdge -> String -> List (String × List String))
    (edges : List MEdge) (eid : String) (recs : List String) : List MEdge :=
  let edges1 := setEdgeRecords edges eid recs
  applyRecordUpdates edges1 (propagate edges1 eid)

/-- The Executing info log pushed at the top of each iteration. -/
def execLog (e : MEdge) : LogEntryM := ⟨.info, "Executing " ++ e.id⟩

/-- The per-edge execution-summary info log. -/
def summaryLog (e : MEdge) : LogEntryM := ⟨.info, e.id ++ " execution summary"⟩

/-- The warning pushed when the fetch returned zero records. -/
def zeroRecordsWarning (e : MEdge) : LogEntryM :=
  ⟨.warning, "qEdge (" ++ e.id ++ ") got 0 records. Your query terminates."⟩

/-- The warning pushed when zero records survive filtering. -/
def zeroKeptWarning (e : MEdge) : LogEntryM :=
  ⟨.warning, "qEdge (" ++ e.id ++ ") kept 0 records. Your query terminates."⟩

/-- One query loop as in TRAPIQueryHandler.query: fetch is the batch edge
query handler, propagate the record filtering of the edge manager, assemble
the final results-assembly pass run only when every edge has executed.  The
fuel is the loop iteration bound; each iteration either returns or marks
one more edge executed, so the number of edges suffices. -/
def runLoop (fetch : String -> List String)
    (propagate : List MEdge -> String -> List (String × List String))
    (assemble : List MEdge -> List AssembledResult) :
    Nat -> HandlerState -> HandlerState
  | 0, st => st
  | Nat.succ fuel, st =>
    match getNextEdge st.edges with
    | none =>
      { st with results := assemble st.edges,
                logs := st.logs ++ [⟨.info, "Execution Summary"⟩] }
    | some e =>
      if (fetch e.id).length = 0 then
        { st with logs := st.logs ++ [execLog e, summaryLog e, zeroRecordsWarning e] }
      else if (recordsOf (storeAndFilter propagate st.edges e.id (fetch e.id)) e.id).length
          = 0 then
        { st with edges := storeAndFilter propagate st.edges e.id (fetch e.id),
                  logs := st.logs ++ [execLog e, summaryLog e, zeroKeptWarning e] }
      else
        runLoop fetch propagate assemble fuel
          { st with edges := markExecuted (storeAndFilter propagate st.edges e.id (fetch e.id)) e.id,
                    logs := st.logs ++ [execLog e, summaryLog e] }

/-- _initializeResponse followed by the loop entry. -/
def initHandlerState (edges : List MEdge) : HandlerState := ⟨edges, [], []⟩

/-- TRAPIQueryHandler.query over its edges. -/
def runQuery (fetch : String -> List String)
    (propagate : List MEdge -> String -> List (String × List String))
    (assemble : List MEdge -> List AssembledResult) (edges : List MEdge) : HandlerState :=
  runLoop fetch propagate assemble (edges.length + 1) (initHandlerState edges)

/-- getResponse: the response always materializes, carrying the assembler
results and the logs. -/
def getResponse (st : HandlerState) : List AssembledResult × List LogEntryM :=
  (st.results, st.logs)

theorem setEdgeRecords_executed (edges : List MEdge) (eid : String) (recs : List String) :
    (setEdgeRecords edges eid recs).map (fun e => e.executed) =
      edges.map (fun e => e.executed) := by
  rw [setEdgeRecords, List.map_map]
  refine List.map_congr_left ?_
  intro e _
  by_cases h : e.id = eid <;> simp [h]

theorem applyRecordUpdates_executed (edges : List MEdge)
    (upd : List (String × List String)) :
    (applyRecordUpdates edges upd).map (fun e => e.executed) =
      edges.map (fun e => e.executed) := by
  rw [applyRecordUpdates, List.map_map]
  refine List.map_congr_left ?_
  intro e _
  cases h : (upd.find? (fun p => p.1 = e.id)).map Prod.snd with
  | none => simp [h]
  | some recs => simp [h]

theorem storeAndFilter_executed (propagate : List MEdge -> String -> List (String × List String))
    (edges : List MEdge) (eid : String) (recs : List String) :
    (storeAndFilter propagate edges eid recs).map (fun e => e.executed) =
      edges.map (fun e => e.executed) := by
  rw [storeAndFilter, applyRecordUpdates_executed, setEdgeRecords_executed]

/-- C5.  Zero-record short-circuit of the main query loop: from any loop
state whose assembler results are still empty (as they are from
initialization until the loop completes), if the selected edge fetches zero
records, or keeps zero records after storing and filtering, then the loop
returns at once — the returned state is a plain value, no error is raised —
with the last log entry a warning, the response still produced with an
empty result list, and the executed flags of every edge unchanged, so no
remaining edge is executed. -/
theorem c5_zero_record_short_circuit (fetch : String -> List String)
    (propagate : List MEdge -> String -> List (String × List String))
    (assemble : List MEdge -> List AssembledResult)
    (fuel : Nat) (st : HandlerState) (e : MEdge)
    (hnext : getNextEdge st.edges = some e)
    (hres : st.results = [])
    (hzero : fetch e.id = [] ∨
      recordsOf (storeAndFilter propagate st.edges e.id (fetch e.id)) e.id = []) :
    (getResponse (runLoop fetch propagate assemble (fuel + 1) st)).1 = [] ∧
    (runLoop fetch propagate assemble (fuel + 1) st).edges.map (fun e => e.executed) =
      st.edges.map (fun e => e.executed) ∧
    ∃ m, (runLoop fetch propagate assemble (fuel + 1) st).logs.getLast? =
      some ⟨LogLevel.warning, m⟩ := by
  simp only [runLoop, hnext]
  by_cases hrec : (fetch e.id).length = 0
  · rw [if_pos hrec]
    refine ⟨hres, rfl, ?_⟩
    refine ⟨(zeroRecordsWarning e).message, ?_⟩
    rw [show st.logs ++ [execLog e, summaryLog e, zeroRecordsWarning e] =
      (st.logs ++ [execLog e, summaryLog e]) ++ [zeroRecordsWarning e] by simp]
    rw [List.getLast?_concat]
    rfl
  · rw [if_neg hrec]
    have hkept : (recordsOf (storeAndFilter propagate st.edges e.id (fetch e.id)) e.id).length
        = 0 := by
      rcases hzero with h | h
      · exact absurd (by rw [h]; rfl) hrec
      · rw [h]; rfl
    rw [if_pos hkept]
    refine ⟨hres, ?_, ?_⟩
    · exact storeAndFilter_executed propagate st.edges e.id (fetch e.id)
    · refine ⟨(zeroKeptWarning e).message, ?_⟩
      rw [show st.logs ++ [execLog e, summaryLog e, zeroKeptWarning e] =
        (st.logs ++ [execLog e, summaryLog e]) ++ [zeroKeptWarning e] by simp]
      rw [List.getLast?_concat]
      rfl

/-- A one-edge instance on which the batch handler returns no records. -/
def c5Edges : List MEdge := [⟨"e1", 1, 1, false, []⟩]

theorem c5_zero_record_short_circuit_witness :
    (getResponse (runLoop (fun _ => []) (fun _ _ => []) (fun _ => []) 1
      (initHandlerState c5Edges))).1 = [] ∧
    (runLoop (fun _ => []) (fun _ _ => []) (fun _ => []) 1
      (initHandlerState c5Edges)).edges.map (fun e => e.executed) =
      (initHandlerState c5Edges).edges.map (fun e => e.executed) ∧
    ∃ m, (runLoop (fun _ => []) (fun _ _ => []) (fun _ => []) 1
      (initHandlerState c5Edges)).logs.getLast? = some ⟨LogLevel.warning, m⟩ :=
  c5_zero_record_short_circuit (fun _ => []) (fun _ _ => []) (fun _ => []) 0
    (initHandlerState c5Edges) ⟨"e1", 1, 1, false, []⟩ (by decide) rfl (Or.inl rfl)

end BTE
